import Mathlib

/-!
Shallow embedding of the walle LED-display transport core (src/walle.py):
the wire codec `_pack_udp`/`_unpack_udp`, the `FakeDisplay` and
`LocalLedDisplay` drivers, the `UdpLedDisplay` network client and the
`_UdpLedDisplayServer` batch-processing loop.

Modelling conventions:
- bytes are `Nat` values below 256, datagrams are `List Nat`;
- machine integers are `Nat` with explicit bounds / `% 2^32`;
- Python floats are binary64, a superset of the exact rationals; a value
  decoded from the 32-bit wire format is modelled by `F32Val`: an exact
  rational for finite values, or an infinity, or NaN;
- Python exceptions become `Except PyErr`; exception *messages* are dropped,
  only the exception class is kept (the code only ever dispatches on the
  class, e.g. `except RuntimeError` / `except TimeoutError`).
-/

namespace Walle

/-- Python exception classes raised by the modelled code. -/
inductive PyErr where
  | runtimeError
  | valueError
  | assertionError
  | timeoutError
  deriving DecidableEq

/-- Value carried by an IEEE-754 binary32 datum (as produced by
`struct.unpack` of a wire float): an exact rational for finite values,
an infinity, or NaN. -/
inductive F32Val where
  | finite (q : ℚ)
  | posInf
  | negInf
  | nan
  deriving DecidableEq

/-- IEEE-754 `<` on float values (any comparison with NaN is false),
as used by Python's `min`/`max`/`<`/`>` on floats. -/
def fLt : F32Val → F32Val → Bool
  | .nan, _ => false
  | _, .nan => false
  | .negInf, .negInf => false
  | .negInf, _ => true
  | _, .negInf => false
  | .posInf, _ => false
  | _, .posInf => true
  | .finite a, .finite b => decide (a < b)

/-- IEEE-754 `<=` on float values (any comparison with NaN is false). -/
def fLe : F32Val → F32Val → Bool
  | .nan, _ => false
  | _, .nan => false
  | .negInf, _ => true
  | _, .negInf => false
  | _, .posInf => true
  | .posInf, _ => false
  | .finite a, .finite b => decide (a ≤ b)

/-- Python `min(c :: cs)`: fold keeping the accumulator unless the next
element compares strictly below it (NaN comparisons are false, so a NaN
accumulator is kept and a NaN element is never taken). -/
def pyMin (c : F32Val) (cs : List F32Val) : F32Val :=
  cs.foldl (fun acc x => if fLt x acc then x else acc) c

/-- Python `max(c :: cs)`: fold keeping the accumulator unless the next
element compares strictly above it. -/
def pyMax (c : F32Val) (cs : List F32Val) : F32Val :=
  cs.foldl (fun acc x => if fLt acc x then x else acc) c

/-- A color is an (r, g, b) triple of float channel values. -/
abbrev Color := F32Val × F32Val × F32Val

/-- A frame (`matrix` in the source) is a list of rows of colors. -/
abbrev Frame := List (List Color)

/-- The channels of one color, in r, g, b order. -/
def Color.channels (c : Color) : List F32Val := [c.1, c.2.1, c.2.2]

/-- All channel values of a frame in row-major, then-channel order: the
generator `(ch for row in matrix for color in row for ch in color)`. -/
def frameChannels (m : Frame) : List F32Val :=
  m.flatMap (fun row => row.flatMap Color.channels)

/-- Model of `_get_dim(matrix)`: asserts the matrix is non-empty and all
rows have equal length, returning `(rows, cols)`; a failed `assert`
raises `AssertionError`. -/
def getDim : Frame → Except PyErr (Nat × Nat)
  | [] => .error .assertionError
  | r :: rs =>
      if rs.all (fun row => row.length = r.length) then .ok (rs.length + 1, r.length)
      else .error .assertionError

/-- Big-endian 4-byte encoding of a 32-bit unsigned integer
(`struct.pack` of format I). -/
def beU32 (n : Nat) : List Nat :=
  [n / 2 ^ 24 % 256, n / 2 ^ 16 % 256, n / 2 ^ 8 % 256, n % 256]

/-- Big-endian decoding of a byte list as an unsigned integer
(`struct.unpack` of format I on 4 bytes). -/
def beU32dec (l : List Nat) : Nat :=
  l.foldl (fun a b => a * 256 + b) 0

/-- Two to an integer power, as a rational. -/
def pow2z (e : ℤ) : ℚ :=
  if 0 ≤ e then ((2 ^ e.toNat : ℕ) : ℚ) else 1 / ((2 ^ (-e).toNat : ℕ) : ℚ)

/-- Round a rational to the nearest integer, ties to even (the IEEE-754
default rounding used by CPython when packing a float into format f). -/
def rndNE (q : ℚ) : ℤ :=
  let n := ⌊q⌋
  let f := q - n
  if f < 1 / 2 then n else if 1 / 2 < f then n + 1 else if n % 2 = 0 then n else n + 1

/-- Fueled base-2 integer logarithm (structural recursion so that the
kernel can evaluate it; the fuel is an upper bound on the recursion
depth). -/
def natLog2F : Nat → Nat → Nat
  | 0, _ => 0
  | fuel + 1, n => if 2 ≤ n then natLog2F fuel (n / 2) + 1 else 0

/-- Base-2 integer logarithm of a natural number (`0` for `n = 0`). -/
def natLog2 (n : Nat) : Nat := natLog2F n n

/-- Floor of the base-2 logarithm of a positive rational: the unique `e`
with `2 ^ e ≤ q < 2 ^ (e + 1)`. -/
def ratLog2 (q : ℚ) : ℤ :=
  let e0 : ℤ := (natLog2 q.num.toNat : ℤ) - (natLog2 q.den : ℤ)
  if q < pow2z e0 then e0 - 1 else e0

/-- Binary32 (biased exponent, mantissa-field) pair for a positive
rational magnitude, rounding to nearest, ties to even; magnitudes that
round to at least `2 ^ 128` give the infinity pattern `(255, 0)`. -/
def encF32mag (a : ℚ) : Nat × Nat :=
  let e : ℤ := max (ratLog2 a) (-126)
  let m : ℤ := rndNE (a * pow2z (23 - e))
  if m < 2 ^ 23 then (0, m.toNat)
  else if m < 2 ^ 24 then
    if 127 < e then (255, 0) else ((e + 127).toNat, m.toNat - 2 ^ 23)
  else
    if 127 < e + 1 then (255, 0) else ((e + 128).toNat, 0)

/-- Bit pattern (as a `Nat < 2 ^ 32`) produced by `struct.pack` of
format f for a float value. NaN is packed as the canonical quiet NaN. -/
def encodeF32 : F32Val → Nat
  | .finite q =>
      if q = 0 then 0
      else
        let sm := encF32mag |q|
        (if q < 0 then 2 ^ 31 else 0) + sm.1 * 2 ^ 23 + sm.2
  | .posInf => 255 * 2 ^ 23
  | .negInf => 2 ^ 31 + 255 * 2 ^ 23
  | .nan => 255 * 2 ^ 23 + 2 ^ 22

/-- Value of a binary32 bit pattern (`struct.unpack` of format f). -/
def decodeF32 (p : Nat) : F32Val :=
  let s : ℕ := p / 2 ^ 31 % 2
  let be : ℕ := p / 2 ^ 23 % 256
  let m : ℕ := p % 2 ^ 23
  if be = 255 then
    if m = 0 then (if s = 1 then .negInf else .posInf) else .nan
  else
    let mag : ℚ :=
      if be = 0 then (m : ℚ) / 2 ^ 149
      else ((2 ^ 23 + m : ℕ) : ℚ) * 2 ^ be / 2 ^ 150
    .finite (if s = 1 then -mag else mag)

/-- Fueled worker for `chunkList` (structural recursion so that the
kernel can evaluate it; each chunk consumes at least the head element,
so `l.length` fuel always suffices). -/
def chunkListF (c : Nat) : Nat → List α → List (List α)
  | _, [] => []
  | 0, _ :: _ => []
  | fuel + 1, x :: xs => (x :: xs.take (c - 1)) :: chunkListF c fuel (xs.drop (c - 1))

/-- Split a list into consecutive chunks of length `c` (the slices
`l[i:i+c]` for `i in range(0, len(l), c)`). The Python original raises
for `c = 0`; that case is unreachable at every call site (`c` is 4, 3,
or a positive column count), and the model then chunks by 1. -/
def chunkList (c : Nat) (l : List α) : List (List α) :=
  chunkListF c l.length l

/-- Group channel values into (r, g, b) colors: the comprehension
`[tuple(chs[i:i+3]) for i in range(0, len(chs), 3)]`. The input length
is always a multiple of 3 at the call site; a ragged tail is dropped. -/
def colorsOf : List F32Val → List Color
  | a :: b :: c :: rest => (a, b, c) :: colorsOf rest
  | _ => []

/-- True when the finite channel value lies in `[0, 1]`; this is the
domain of channel values the protocol calls valid. -/
def chIn01 : F32Val → Bool
  | .finite q => decide (0 ≤ q) && decide (q ≤ 1)
  | _ => false

/-- All channels of the frame are finite values in `[0, 1]`. -/
def frameOk01 (m : Frame) : Bool :=
  (frameChannels m).all chIn01

/-- Pack one channel float: `struct.pack` of format f raises
`OverflowError` for finite doubles whose magnitude rounds beyond the
binary32 range; that error class is folded into `RuntimeError` here (it
is unreachable from every modelled call site, whose channels are
range-checked into `[0, 1]`). -/
def packF32 (v : F32Val) : Except PyErr (List Nat) :=
  match v with
  | .finite q =>
      if q ≠ 0 ∧ (encF32mag |q|).1 = 255 then .error .runtimeError
      else .ok (beU32 (encodeF32 (.finite q)))
  | v => .ok (beU32 (encodeF32 v))

/-- Model of `_pack_udp(matrix, msg_seq)`: 4-byte big-endian sequence
header, then (for a frame) rows, cols and the channel floats, all
big-endian. `struct.pack` of format I raises `struct.error` (modelled
as `RuntimeError`) for arguments at or above `2 ^ 32`; the source's
`assert len(payload) == 8 + 4 * 3 * num_rows * num_cols` is kept. -/
def packUDP (matrix : Option Frame) (msgSeq : Nat) : Except PyErr (List Nat) :=
  if 2 ^ 32 ≤ msgSeq then .error .runtimeError
  else
    match matrix with
    | none => .ok (beU32 msgSeq)
    | some m => do
        let (numRows, numCols) ← getDim m
        if 2 ^ 32 ≤ numRows ∨ 2 ^ 32 ≤ numCols then .error .runtimeError
        else do
          let blocks ← (frameChannels m).mapM packF32
          let payload := beU32 numRows ++ beU32 numCols ++ blocks.flatten
          if payload.length = 8 + 4 * (3 * numRows * numCols) then .ok (beU32 msgSeq ++ payload)
          else .error .assertionError

/-- The bytes `_pack_udp` produces when it succeeds (and `[]` when it
raises); convenience total form used to state ack contents. -/
def packOk (matrix : Option Frame) (msgSeq : Nat) : List Nat :=
  match packUDP matrix msgSeq with
  | .ok b => b
  | .error _ => []

/-- Decode the non-empty payload of a frame-carrying packet (the body of
`_unpack_udp` after the header split). `min` of an empty channel list —
the case of a well-formed packet declaring a zero-area frame — raises
`ValueError`, which no caller catches. -/
def unpackPayload (msgSeq : Nat) (payload : List Nat) : Except PyErr (Option Frame × Nat) :=
  if payload.length % 4 ≠ 0 then .error .runtimeError
  else
    let numChs := (payload.length - 8) / 4
    if payload.length ≠ 8 + 4 * numChs then .error .runtimeError
    else
      let numRows := beU32dec (payload.take 4)
      let numCols := beU32dec ((payload.drop 4).take 4)
      let chs := (chunkList 4 (payload.drop 8)).map (fun w => decodeF32 (beU32dec w))
      if numChs ≠ 3 * (numRows * numCols) then .error .runtimeError
      else
        match chs with
        | [] => .error .valueError
        | c :: rest =>
            if fLt (pyMin c rest) (.finite 0) || fLt (.finite 1) (pyMax c rest) then
              .error .runtimeError
            else .ok (some (chunkList numCols (colorsOf (c :: rest))), msgSeq)

/-- Model of `_unpack_udp(data)`: rejects sizes that are neither exactly
4 nor at least 12, splits the 4-byte header, and decodes any payload. -/
def unpackUDP (data : List Nat) : Except PyErr (Option Frame × Nat) :=
  if data.length ≠ 4 ∧ data.length < 12 then .error .runtimeError
  else
    let msgSeq := beU32dec (data.take 4)
    let payload := data.drop 4
    if payload.length ≠ 0 then unpackPayload msgSeq payload
    else .ok (none, msgSeq)

/-- The matrix `all_off_matrix(dim)` builds: note the source iterates
`range(dim[1])` rows of `range(dim[0])` cells, so for a non-square
`dim = (rows, cols)` the result is transposed. -/
def allOffMatrix (dim : Nat × Nat) : Frame :=
  List.replicate dim.2 (List.replicate dim.1 (.finite 0, .finite 0, .finite 0))

/-- Post-initialization state of `FakeDisplay`: fixed dimensions and the
current (deep-copied) matrix; the pre-init `None` never escapes
`__init__`, so `current` is always a frame. -/
structure FakeDisplay where
  fdim : Nat × Nat
  current : Frame
  deriving DecidableEq

/-- Model of `FakeDisplay.set(matrix)`: assert the matrix dimensions
equal the display's, then store a deep copy (value semantics). -/
def fakeSet (d : FakeDisplay) (m : Frame) : Except PyErr FakeDisplay := do
  let dm ← getDim m
  if dm = d.fdim then .ok { d with current := m } else .error .assertionError

/-- Model of `FakeDisplay.get()`: returns the stored current matrix. -/
def fakeGet (d : FakeDisplay) : Option Frame :=
  some d.current

/-- Apply the (abstract) gamma function to every channel: the source's
`_gamma_corrected`, `[[tuple(ch ** 2.3 for ch in color) ...]]`. The
binary64 power `ch ** 2.3` is transcendental, so it enters the model as
the parameter `g`. -/
def gammaCorrected (g : F32Val → F32Val) (m : Frame) : Frame :=
  m.map (fun row => row.map (fun c => (g c.1, g c.2.1, g c.2.2)))

/-- Quantize one channel: `min(int(ch * 256), 255)`; `int` truncates
toward zero, which on the asserted range `[0, 1]` is the floor. The
non-finite cases are unreachable behind the range assert. -/
def quantF32 : F32Val → Nat
  | .finite q => min (Int.toNat ⌊q * 256⌋) 255
  | _ => 0

/-- Model of `LocalLedDisplay._flatten(matrix)`: reverse the row order,
reverse every other row (snaking), flatten to channels, assert every
channel is in `[0, 1]` (IEEE comparisons, so NaN fails the assert),
quantize to 8-bit values and assert the final length. -/
def flattenBytes (dim : Nat × Nat) (m : Frame) : Except PyErr (List Nat) :=
  let snaked := m.reverse.enum.map (fun p => if p.1 % 2 = 0 then p.2 else p.2.reverse)
  let frgb := snaked.flatMap (fun row => row.flatMap Color.channels)
  if frgb.all (fun ch => fLe (.finite 0) ch && fLe ch (.finite 1)) then
    let rgb8 := frgb.map quantF32
    if rgb8.length = 3 * dim.1 * dim.2 then .ok rgb8 else .error .assertionError
  else .error .assertionError

/-- Post-initialization state of `LocalLedDisplay`: the gamma flag and
dimensions fixed at construction, the stored pre-gamma current matrix,
and the log of byte lists written to the SPI bus by `spi.xfer`. -/
structure LocalLedDisplay where
  gammaCorrect : Bool
  ldim : Nat × Nat
  current : Frame
  spiLog : List (List Nat)
  deriving DecidableEq

/-- Model of `LocalLedDisplay.set(matrix)`, parameterized by the
binary64 gamma power `g` (for `ch ** 2.3`): assert dimensions, store the
pre-gamma copy, gamma-correct if enabled, flatten and write to the bus.
If `_flatten`'s assert fires the stored copy was already updated; the
model returns only the error in that (unreachable from valid frames)
case. -/
def localSet (g : F32Val → F32Val) (d : LocalLedDisplay) (m : Frame) :
    Except PyErr LocalLedDisplay := do
  let dm ← getDim m
  if dm = d.ldim then do
    let m2 := if d.gammaCorrect then gammaCorrected g m else m
    let bytes ← flattenBytes d.ldim m2
    .ok { d with current := m, spiLog := d.spiLog ++ [bytes] }
  else .error .assertionError

/-- Model of `LocalLedDisplay.get()`: returns the stored pre-gamma
current matrix. -/
def localGet (d : LocalLedDisplay) : Option Frame :=
  some d.current

/-- State of the `UdpLedDisplay` network client: fixed dimensions, the
synchronous flag, the sequence counter and the timeout tally. Host,
port and the timeout duration do not enter the functional model. -/
structure ClientSt where
  cdim : Nat × Nat
  synchronous : Bool
  msgSeq : Nat
  numTotalTimeouts : Nat
  deriving DecidableEq

/-- Outcome of a client request: a normal return or a raised exception,
with the client state as mutated so far and the datagrams sent. -/
inductive ReqOut where
  | ok (ret : Option Frame) (st : ClientSt) (sent : List (List Nat))
  | exn (e : PyErr) (st : ClientSt) (sent : List (List Nat))
  deriving DecidableEq

/-- The acknowledgment wait loop of `_request_impl`, over the list of
datagrams that arrive inside the timeout budget (time enters the model
only through this list): each arrival is unpacked, a `RuntimeError`
is swallowed, a reply whose sequence matches is returned, anything else
keeps waiting; an exhausted list is the timeout. `none` = timed out. -/
def recvLoop (txSeq : Nat) : List (List Nat) → Except PyErr (Option (Option Frame))
  | [] => .ok none
  | rx :: rest =>
      match unpackUDP rx with
      | .ok (rxm, rxSeq) => if rxSeq = txSeq then .ok (some rxm) else recvLoop txSeq rest
      | .error .runtimeError => recvLoop txSeq rest
      | .error e => .error e

/-- The dimension `assert` at the top of `_request_impl`:
`matrix is None or _get_dim(matrix) == self._dim`. -/
def dimAssertOk (matrix : Option Frame) (dm : Nat × Nat) : Bool :=
  match matrix with
  | none => true
  | some m => match getDim m with
      | .ok d => d = dm
      | .error _ => false

/-- Model of `UdpLedDisplay._request_impl(matrix, wait_for_ack)`:
assert dimensions, consume and increment the sequence number mod 2^32,
pack and send one datagram, then either wait for a matching
acknowledgment (raising `TimeoutError` when the arrivals are exhausted)
or just flush the receive queue and return `None`. -/
def requestImpl (st : ClientSt) (matrix : Option Frame) (waitForAck : Bool)
    (arrivals : List (List Nat)) : ReqOut :=
  if dimAssertOk matrix st.cdim then
    let txSeq := st.msgSeq
    let st1 := { st with msgSeq := (st.msgSeq + 1) % 2 ^ 32 }
    match packUDP matrix txSeq with
    | .error e => .exn e st1 []
    | .ok tx =>
        if waitForAck then
          match recvLoop txSeq arrivals with
          | .ok (some rxm) => .ok rxm st1 [tx]
          | .ok none => .exn .timeoutError st1 [tx]
          | .error e => .exn e st1 [tx]
        else .ok none st1 [tx]
  else .exn .assertionError st []

/-- Model of `UdpLedDisplay._request`: run `_request_impl`, swallow a
`TimeoutError` (counting it and returning `None`), let everything else
propagate. -/
def requestRun (st : ClientSt) (matrix : Option Frame) (waitForAck : Bool)
    (arrivals : List (List Nat)) : ReqOut :=
  match requestImpl st matrix waitForAck arrivals with
  | .exn .timeoutError st1 sent =>
      .ok none { st1 with numTotalTimeouts := st1.numTotalTimeouts + 1 } sent
  | r => r

/-- Model of `UdpLedDisplay.set(matrix)`: `_request(matrix,
self._synchronous)`, whose return value is discarded (`set` itself
returns `None`). -/
def clientSet (st : ClientSt) (m : Frame) (arrivals : List (List Nat)) : ReqOut :=
  match requestRun st (some m) st.synchronous arrivals with
  | .ok _ st1 sent => .ok none st1 sent
  | r => r

/-- Model of `UdpLedDisplay.get()`: `return self._request(None, True)`. -/
def clientGet (st : ClientSt) (arrivals : List (List Nat)) : ReqOut :=
  requestRun st none true arrivals

/-- A datagram source address (host, port), abstracted to a pair of
numbers. -/
abbrev Addr := Nat × Nat

/-- One successfully parsed server request: `(client_addr, matrix,
msg_seq)`. -/
structure Request where
  addr : Addr
  matrix : Option Frame
  seq : Nat
  deriving DecidableEq

/-- Python truthiness of the parsed `matrix` value (`if matrix:`):
`None` and the empty list are falsy. -/
def matrixTruthy : Option Frame → Bool
  | none => false
  | some m => !m.isEmpty

/-- The driver interface the server consumes: `dim()`, `set(matrix)`,
`get()`. -/
structure DriverOps (D : Type) where
  ddim : D → Nat × Nat
  dset : D → Frame → Except PyErr D
  dget : D → Option Frame

/-- The `DriverOps` view of a `FakeDisplay`. -/
def fakeOps : DriverOps FakeDisplay :=
  ⟨fun d => d.fdim, fakeSet, fakeGet⟩

/-- Model of `_UdpLedDisplayServer._parse_request_data(data)`: unpack
the datagram, and for a truthy matrix check its dimensions against the
driven display's, raising `RuntimeError` on mismatch. -/
def parseRequestData (ops : DriverOps D) (d : D) (data : List Nat) :
    Except PyErr (Option Frame × Nat) := do
  let (matrix, msgSeq) ← unpackUDP data
  match matrix with
  | some mm =>
      if !mm.isEmpty then do
        let dm ← getDim mm
        if dm ≠ ops.ddim d then .error .runtimeError else .ok (matrix, msgSeq)
      else .ok (matrix, msgSeq)
  | none => .ok (matrix, msgSeq)

/-- The receive-and-parse phase of `_process_requests` over the drained
datagrams: parse each in order, skipping (only logging) those that fail
with `RuntimeError`; any other exception (for example the `ValueError`
from a zero-area frame) propagates and aborts the whole batch. -/
def parseBatch (ops : DriverOps D) (d : D) : List (Addr × List Nat) → Except PyErr (List Request)
  | [] => .ok []
  | (a, bs) :: rest =>
      match parseRequestData ops d bs with
      | .ok (m, s) => (parseBatch ops d rest).map (fun rs => ⟨a, m, s⟩ :: rs)
      | .error .runtimeError => parseBatch ops d rest
      | .error e => .error e

/-- Index of the last parsed request whose matrix is truthy: the model
of the `last_update_request` reference (`request is last_update_request`
is reference identity, hence position in the batch). -/
def lastTruthyIdx : List Request → Option Nat
  | [] => none
  | r :: rest =>
      match lastTruthyIdx rest with
      | some j => some (j + 1)
      | none => if matrixTruthy r.matrix then some 0 else none

/-- Server-side peer tracking: last update client address and its last
sequence number, used only for gap-detection logging. -/
structure SrvTrack where
  lastUpdateClient : Option Addr
  lastUpdateMsgSeq : Option Nat
  deriving DecidableEq

/-- Tracking update for a truthy request: a new client address resets
the remembered sequence, then the sequence is recorded (the gap /
duplicate comparisons in between only log). -/
def trackUpdate (tr : SrvTrack) (a : Addr) (seq : Nat) : SrvTrack :=
  let tr1 := if tr.lastUpdateClient ≠ some a then ⟨some a, none⟩ else tr
  { tr1 with lastUpdateMsgSeq := some seq }

/-- The acknowledge-and-actuate phase of `_process_requests`: walk the
parsed requests in order; for a truthy request update the tracking and,
exactly when it is the last update request, call `driver.set` (a
`TimeoutError` from the set is caught and logged, the request is still
acknowledged); then acknowledge every request with
`_pack_udp(driver.get(), msg_seq)` sent to its source address. `acks`
accumulates the (address, bytes) datagrams sent, `slog` the matrices
passed to `driver.set`. -/
def serveLoop (ops : DriverOps D) (lastIdx : Option Nat) (idx : Nat) (rs : List Request)
    (tr : SrvTrack) (d : D) (acks : List (Addr × List Nat)) (slog : List Frame) :
    Except PyErr (SrvTrack × D × List (Addr × List Nat) × List Frame) :=
  match rs with
  | [] => .ok (tr, d, acks, slog)
  | r :: rest =>
      if matrixTruthy r.matrix then
        let tr1 := trackUpdate tr r.addr r.seq
        let mm := r.matrix.getD []
        if some idx = lastIdx then
          match ops.dset d mm with
          | .ok d1 => do
              let ack ← packUDP (ops.dget d1) r.seq
              serveLoop ops lastIdx (idx + 1) rest tr1 d1 (acks ++ [(r.addr, ack)]) (slog ++ [mm])
          | .error .timeoutError => do
              let ack ← packUDP (ops.dget d) r.seq
              serveLoop ops lastIdx (idx + 1) rest tr1 d (acks ++ [(r.addr, ack)]) (slog ++ [mm])
          | .error e => .error e
        else do
          let ack ← packUDP (ops.dget d) r.seq
          serveLoop ops lastIdx (idx + 1) rest tr1 d (acks ++ [(r.addr, ack)]) slog
      else do
        let ack ← packUDP (ops.dget d) r.seq
        serveLoop ops lastIdx (idx + 1) rest tr d (acks ++ [(r.addr, ack)]) slog

/-- Model of `_UdpLedDisplayServer._process_requests()`: drain at most
10 pending datagrams (`pending` is the OS receive queue in arrival
order), parse them, then acknowledge all parsed requests while
actuating only the last update request. Returns the new tracking state,
the new driver state, the acknowledgment datagrams sent and the list of
`driver.set` calls made. -/
def processRequests (ops : DriverOps D) (d : D) (tr : SrvTrack)
    (pending : List (Addr × List Nat)) :
    Except PyErr (SrvTrack × D × List (Addr × List Nat) × List Frame) := do
  let rs ← parseBatch ops d (pending.take 10)
  serveLoop ops (lastTruthyIdx rs) 0 rs tr d [] []

/-- The client state after one request that timed out: sequence number
advanced, timeout tally incremented. -/
def afterTimeout (st : ClientSt) : ClientSt :=
  { st with msgSeq := (st.msgSeq + 1) % 2 ^ 32,
            numTotalTimeouts := st.numTotalTimeouts + 1 }

/-- Well-formedness of a fake display driven by the server: the stored
matrix is rectangular with the display's own dimensions, those
dimensions fit the wire format, and all channels are valid — it is what
`FakeDisplay.__init__` establishes and every accepted update preserves. -/
def fakeInv (d : FakeDisplay) : Prop :=
  getDim d.current = .ok d.fdim ∧ d.fdim.1 < 2 ^ 32 ∧ d.fdim.2 < 2 ^ 32 ∧
    frameOk01 d.current = true

/-- The server tracking state after acknowledging a list of requests in
order (only truthy requests update it). -/
def trFold (rs : List Request) (tr : SrvTrack) : SrvTrack :=
  rs.foldl (fun t r => if matrixTruthy r.matrix then trackUpdate t r.addr r.seq else t) tr

/-- The frame the driven display holds when the i-th request of the
batch is acknowledged: the initial frame until the winning update has
been applied, the winning update's frame from then on. -/
def ackFrame (rs : List Request) (init : Frame) (i : Nat) : Frame :=
  match lastTruthyIdx rs with
  | some j => if j ≤ i then ((rs.getD j ⟨(0, 0), none, 0⟩).matrix).getD init else init
  | none => init

/-- All channels of the request's frame (if any) are valid: the sense
in which a parsed update datagram is called a valid update. -/
def reqOk01 (r : Request) : Bool :=
  match r.matrix with
  | some mm => frameOk01 mm
  | none => true

/-- A heap of frame objects, for modelling Python object identity in
the aliasing claims: addresses are indices into `cells`. Mutation is
modelled at whole-frame granularity (`h.write r f` is mutating the
object at `r` in place). -/
structure Heap where
  cells : List Frame
  deriving DecidableEq

/-- Allocate a fresh frame object, returning its address. -/
def Heap.alloc (h : Heap) (f : Frame) : Heap × Nat :=
  (⟨h.cells ++ [f]⟩, h.cells.length)

/-- Read the frame object at an address. -/
def Heap.read (h : Heap) (r : Nat) : Frame :=
  h.cells.getD r []

/-- Mutate the frame object at an address in place. -/
def Heap.write (h : Heap) (r : Nat) (f : Frame) : Heap :=
  ⟨h.cells.set r f⟩

/-- Reference-level state of a `FakeDisplay` (the `LocalLedDisplay`
store is line-for-line identical): `_current_matrix` is a reference
into the heap. -/
structure FakeDisplayH where
  hdim : Nat × Nat
  currentRef : Nat
  deriving DecidableEq

/-- Reference-level `FakeDisplay.set(matrix)`: assert dimensions, then
`self._current_matrix = copy.deepcopy(matrix)` — a fresh object holding
an equal value; the caller's object is not retained. -/
def fakeSetH (h : Heap) (d : FakeDisplayH) (mref : Nat) :
    Except PyErr (Heap × FakeDisplayH) := do
  let m := h.read mref
  let dm ← getDim m
  if dm = d.hdim then
    let (h1, r) := h.alloc m
    .ok (h1, { d with currentRef := r })
  else .error .assertionError

/-- Reference-level `FakeDisplay.get()`:
`return self._current_matrix` — the internal reference itself, with no
copy. -/
def fakeGetH (d : FakeDisplayH) : Nat :=
  d.currentRef

instance {ε α : Type _} [DecidableEq ε] [DecidableEq α] : DecidableEq (Except ε α) :=
  fun a b =>
    match a, b with
    | .ok x, .ok y => decidable_of_iff (x = y) ⟨fun h => by rw [h], fun h => Except.ok.inj h⟩
    | .error e, .error f =>
        decidable_of_iff (e = f) ⟨fun h => by rw [h], fun h => Except.error.inj h⟩
    | .ok _, .error _ => isFalse Except.noConfusion
    | .error _, .ok _ => isFalse Except.noConfusion

lemma natLog2F_fuel (fuel fuel2 n : Nat) (h : n ≤ fuel) (h2 : n ≤ fuel2) :
    natLog2F fuel n = natLog2F fuel2 n := by
  induction fuel generalizing fuel2 n with
  | zero =>
      interval_cases n
      cases fuel2 <;> simp [natLog2F]
  | succ fuel ih =>
      cases fuel2 with
      | zero =>
          interval_cases n
          simp [natLog2F]
      | succ fuel2 =>
          match n with
          | 0 => rfl
          | 1 => simp [natLog2F]
          | n + 2 =>
              simp only [natLog2F, if_pos (by omega : 2 ≤ n + 2)]
              rw [ih fuel2 ((n + 2) / 2) (by omega) (by omega)]

lemma natLog2_def (n : Nat) : natLog2 n = if 2 ≤ n then natLog2 (n / 2) + 1 else 0 := by
  cases n with
  | zero => rfl
  | succ n =>
      simp only [natLog2, natLog2F]
      split
      · rename_i h
        rw [natLog2F_fuel n ((n + 1) / 2) ((n + 1) / 2) (by omega) le_rfl]
      · rfl

lemma natLog2_mono {m n : Nat} (h : m ≤ n) : natLog2 m ≤ natLog2 n := by
  induction n using Nat.strong_induction_on generalizing m with
  | _ n ih =>
      rw [natLog2_def m, natLog2_def n]
      by_cases hm : 2 ≤ m
      · rw [if_pos hm, if_pos (by omega)]
        have := ih (n / 2) (by omega) (Nat.div_le_div_right h)
        omega
      · rw [if_neg hm]
        omega

lemma chunkListF_fuel (c : Nat) (fuel fuel2 : Nat) (l : List α)
    (h : l.length ≤ fuel) (h2 : l.length ≤ fuel2) :
    chunkListF c fuel l = chunkListF c fuel2 l := by
  induction fuel generalizing fuel2 l with
  | zero =>
      cases l with
      | nil => cases fuel2 <;> rfl
      | cons x xs => simp at h
  | succ fuel ih =>
      cases l with
      | nil => cases fuel2 <;> rfl
      | cons x xs =>
          cases fuel2 with
          | zero => simp at h2
          | succ fuel2 =>
              simp only [chunkListF]
              rw [ih fuel2 (xs.drop (c - 1)) (by simp at h ⊢; omega) (by simp at h2 ⊢; omega)]

lemma chunkList_nil (c : Nat) : chunkList c ([] : List α) = [] := rfl

lemma chunkList_cons (c : Nat) (x : α) (xs : List α) :
    chunkList c (x :: xs) = (x :: xs.take (c - 1)) :: chunkList c (xs.drop (c - 1)) := by
  simp only [chunkList, List.length_cons, chunkListF]
  rw [chunkListF_fuel c xs.length (xs.drop (c - 1)).length (xs.drop (c - 1))
    (by simp only [List.length_drop]; omega) le_rfl]

lemma ratLog2_nonpos (q : ℚ) (h1 : q ≤ 1) : ratLog2 q ≤ 0 := by
  have hd : (0 : ℚ) < (q.den : ℚ) := by exact_mod_cast q.den_pos
  have hnum : q.num ≤ (q.den : ℤ) := by
    rw [← Rat.num_div_den q, div_le_one hd] at h1
    exact_mod_cast h1
  have hmono : natLog2 q.num.toNat ≤ natLog2 q.den := natLog2_mono (by omega)
  simp only [ratLog2]
  split <;> omega

lemma encF32mag_fst_ne (q : ℚ) (h1 : q ≤ 1) : (encF32mag q).1 ≠ 255 := by
  have he : max (ratLog2 q) (-126) ≤ 0 := by
    have := ratLog2_nonpos q h1
    omega
  simp only [encF32mag]
  split
  · simp
  · split
    · split
      · omega
      · simp only []
        omega
    · split
      · omega
      · simp only []
        omega

lemma encF32mag_bounds (a : ℚ) : (encF32mag a).1 ≤ 255 ∧ (encF32mag a).2 < 2 ^ 23 := by
  simp only [encF32mag]
  split
  · rename_i hm
    constructor
    · simp
    · simp only []
      omega
  · split
    · split
      · simp
      · rename_i hm2 _ he
        constructor
        · simp only []
          omega
        · simp only []
          omega
    · split
      · simp
      · rename_i hm2 he
        constructor
        · simp only []
          omega
        · simp

lemma encodeF32_lt (v : F32Val) : encodeF32 v < 2 ^ 32 := by
  cases v with
  | finite q =>
      simp only [encodeF32]
      split
      · norm_num
      · have hb := encF32mag_bounds |q|
        split <;> omega
  | posInf => norm_num [encodeF32]
  | negInf => norm_num [encodeF32]
  | nan => norm_num [encodeF32]

lemma packF32_ok (v : F32Val) (h : chIn01 v = true) :
    packF32 v = .ok (beU32 (encodeF32 v)) := by
  cases v with
  | finite q =>
      simp only [chIn01, Bool.and_eq_true, decide_eq_true_eq] at h
      simp only [packF32, ne_eq]
      rw [if_neg]
      rintro ⟨-, h255⟩
      exact encF32mag_fst_ne |q| (by rw [abs_of_nonneg h.1]; exact h.2) h255
  | posInf => simp [chIn01] at h
  | negInf => simp [chIn01] at h
  | nan => simp [chIn01] at h

lemma mapM_packF32 (l : List F32Val) (h : ∀ v ∈ l, chIn01 v = true) :
    l.mapM packF32 = .ok (l.map (fun v => beU32 (encodeF32 v))) := by
  induction l with
  | nil => rfl
  | cons x xs ih =>
      rw [List.mapM_cons, packF32_ok x (h x (by simp)), ih (fun v hv => h v (by simp [hv]))]
      rfl

lemma beU32_length (n : Nat) : (beU32 n).length = 4 := rfl

lemma flatten_map_beU32_length (l : List F32Val) :
    ((l.map (fun v => beU32 (encodeF32 v))).flatten).length = 4 * l.length := by
  induction l with
  | nil => rfl
  | cons x xs ih => simp only [List.map_cons, List.flatten_cons, List.length_append, ih,
      beU32_length, List.length_cons]; ring

lemma getDim_spec (m : Frame) (r c : Nat) (h : getDim m = .ok (r, c)) :
    m.length = r ∧ ∀ row ∈ m, row.length = c := by
  cases m with
  | nil => simp [getDim] at h
  | cons rw0 rs =>
      simp only [getDim] at h
      split at h
      · rename_i hall
        injection h with h
        injection h with h1 h2
        subst h1; subst h2
        refine ⟨by simp, ?_⟩
        intro row hrow
        rcases List.mem_cons.mp hrow with h | h
        · rw [h]
        · simpa using List.all_eq_true.mp hall row h
      · exact absurd h (by simp)

lemma rowChannels_length (row : List Color) :
    (row.flatMap Color.channels).length = 3 * row.length := by
  induction row with
  | nil => rfl
  | cons x xs ih => simp only [List.flatMap_cons, List.length_append, ih, Color.channels,
      List.length_cons, List.length_nil]; ring

lemma frameChannels_length_rows (m : Frame) (c : Nat) (h : ∀ row ∈ m, row.length = c) :
    (frameChannels m).length = 3 * c * m.length := by
  induction m with
  | nil => simp [frameChannels]
  | cons row rest ih =>
      have h2 := ih (fun rw hrw => h rw (by simp [hrw]))
      simp only [frameChannels, List.flatMap_cons, List.length_append] at h2 ⊢
      rw [rowChannels_length row, h2, h row (by simp)]
      simp only [List.length_cons]
      ring

lemma frameChannels_length (m : Frame) (r c : Nat) (h : getDim m = .ok (r, c)) :
    (frameChannels m).length = 3 * (r * c) := by
  obtain ⟨hlen, hrows⟩ := getDim_spec m r c h
  rw [frameChannels_length_rows m c hrows, hlen]
  ring

lemma packUDP_some_eq (m : Frame) (seq r c : Nat) (hd : getDim m = .ok (r, c))
    (hr : r < 2 ^ 32) (hc : c < 2 ^ 32) (hs : seq < 2 ^ 32)
    (hch : ∀ v ∈ frameChannels m, chIn01 v = true) :
    packUDP (some m) seq =
      .ok (beU32 seq ++ beU32 r ++ beU32 c ++
        ((frameChannels m).map (fun v => beU32 (encodeF32 v))).flatten) := by
  simp only [packUDP]
  rw [if_neg (by omega)]
  rw [hd]
  simp only [Bind.bind, Except.bind]
  rw [if_neg (by omega)]
  rw [mapM_packF32 _ hch]
  simp only []
  rw [if_pos]
  · simp
  · simp only [List.length_append, beU32_length, flatten_map_beU32_length,
      frameChannels_length m r c hd]
    ring

lemma packOk_eq (matrix : Option Frame) (s : Nat) (b : List Nat)
    (h : packUDP matrix s = .ok b) : packOk matrix s = b := by
  simp [packOk, h]

lemma recvLoop_timeout (txSeq : Nat) (arr : List (List Nat))
    (h : ∀ rx ∈ arr, unpackUDP rx = .error .runtimeError ∨
      ∃ mm s, unpackUDP rx = .ok (mm, s) ∧ s ≠ txSeq) :
    recvLoop txSeq arr = .ok none := by
  induction arr with
  | nil => rfl
  | cons rx rest ih =>
      have hr := h rx (by simp)
      have hrest := ih (fun r hr => h r (by simp [hr]))
      rcases hr with he | ⟨mm, s, hok, hne⟩
      · simp only [recvLoop]
        rw [he]
        exact hrest
      · simp only [recvLoop]
        rw [hok]
        simp only [if_neg hne]
        exact hrest

lemma prod_eta (p : Nat × Nat) : (p.1, p.2) = p := rfl

lemma requestRun_timeout (st : ClientSt) (matrix : Option Frame) (arrivals : List (List Nat))
    (hdim : dimAssertOk matrix st.cdim = true)
    (hpack : ∃ b, packUDP matrix st.msgSeq = .ok b)
    (hnone : ∀ rx ∈ arrivals, unpackUDP rx = .error .runtimeError ∨
      ∃ mm s, unpackUDP rx = .ok (mm, s) ∧ s ≠ st.msgSeq) :
    requestRun st matrix true arrivals =
      .ok none (afterTimeout st) [packOk matrix st.msgSeq] := by
  obtain ⟨b, hb⟩ := hpack
  simp only [requestRun, requestImpl, hdim, if_true]
  rw [hb, recvLoop_timeout st.msgSeq arrivals hnone]
  simp [afterTimeout, packOk_eq matrix st.msgSeq b hb]

/-- C10: a timed-out wait for a matching-sequence acknowledgment is
swallowed (below any failure handling): `get()` returns `None` instead
of a frame and `set()` returns normally as a no-op success, each having
sent exactly its one request datagram and counted the timeout. -/
theorem timeout_swallowed_returns_none (st : ClientSt) (m : Frame)
    (arrivals : List (List Nat))
    (hdim : getDim m = .ok st.cdim)
    (hseq : st.msgSeq < 2 ^ 32) (hr : st.cdim.1 < 2 ^ 32) (hc : st.cdim.2 < 2 ^ 32)
    (hch : ∀ v ∈ frameChannels m, chIn01 v = true)
    (hsync : st.synchronous = true)
    (hnone : ∀ rx ∈ arrivals, unpackUDP rx = .error .runtimeError ∨
      ∃ mm s, unpackUDP rx = .ok (mm, s) ∧ s ≠ st.msgSeq) :
    clientGet st arrivals = .ok none (afterTimeout st) [packOk none st.msgSeq] ∧
    clientSet st m arrivals = .ok none (afterTimeout st) [packOk (some m) st.msgSeq] := by
  have hget : requestRun st none true arrivals =
      .ok none (afterTimeout st) [packOk none st.msgSeq] := by
    apply requestRun_timeout st none arrivals rfl _ hnone
    exact ⟨beU32 st.msgSeq, by simp only [packUDP]; rw [if_neg (by omega)]⟩
  have hset : requestRun st (some m) true arrivals =
      .ok none (afterTimeout st) [packOk (some m) st.msgSeq] := by
    apply requestRun_timeout st (some m) arrivals _ _ hnone
    · simp only [dimAssertOk]
      rw [hdim]
      simp
    · exact ⟨_, packUDP_some_eq m st.msgSeq st.cdim.1 st.cdim.2 hdim hr hc hseq hch⟩
  refine ⟨hget, ?_⟩
  simp only [clientSet, hsync, hset]

/-- C10 witness: a concrete 1-by-1 network client whose request gets no
reply: `get` returns `None` and `set` succeeds as a no-op. -/
theorem timeout_swallowed_returns_none_witness :
    clientGet ⟨(1, 1), true, 0, 0⟩ [] =
      .ok none (afterTimeout ⟨(1, 1), true, 0, 0⟩) [packOk none 0] ∧
    clientSet ⟨(1, 1), true, 0, 0⟩ [[(.finite 0, .finite 0, .finite 0)]] [] =
      .ok none (afterTimeout ⟨(1, 1), true, 0, 0⟩)
        [packOk (some [[(.finite 0, .finite 0, .finite 0)]]) 0] :=
  timeout_swallowed_returns_none ⟨(1, 1), true, 0, 0⟩
    [[(.finite 0, .finite 0, .finite 0)]] []
    (by decide) (by decide) (by decide) (by decide) (by decide) rfl
    (fun rx hrx => absurd hrx (List.not_mem_nil rx))

/-- C4 counterexample: a client far beyond any failure threshold (1000
recorded timeouts, against the spec's example threshold of 10) whose
`set` times out again does not raise anything — there is no
`TooManyFailures` anywhere in the code; the call returns normally and
just increments the tally to 1001. -/
theorem no_circuit_breaker_cex :
    10 < (⟨(1, 1), true, 5, 1000⟩ : ClientSt).numTotalTimeouts ∧
    clientSet ⟨(1, 1), true, 5, 1000⟩ [[(.finite 0, .finite 0, .finite 0)]] [] =
      .ok none ⟨(1, 1), true, 6, 1001⟩
        [packOk (some [[(.finite 0, .finite 0, .finite 0)]]) 5] := by
  exact ⟨by decide, by decide⟩

/-- C4 amended: there is no circuit breaker. Whatever the accumulated
failure count, a `set` whose acknowledgment wait times out is swallowed:
it is logged, counted in `_num_total_timeouts`, and `set` returns as a
no-op success; `TooManyFailures` is never raised. -/
theorem timeouts_always_swallowed (st : ClientSt) (m : Frame)
    (arrivals : List (List Nat))
    (hdim : getDim m = .ok st.cdim)
    (hseq : st.msgSeq < 2 ^ 32) (hr : st.cdim.1 < 2 ^ 32) (hc : st.cdim.2 < 2 ^ 32)
    (hch : ∀ v ∈ frameChannels m, chIn01 v = true)
    (hsync : st.synchronous = true)
    (hnone : ∀ rx ∈ arrivals, unpackUDP rx = .error .runtimeError ∨
      ∃ mm s, unpackUDP rx = .ok (mm, s) ∧ s ≠ st.msgSeq) :
    clientSet st m arrivals = .ok none (afterTimeout st) [packOk (some m) st.msgSeq] := by
  have hset : requestRun st (some m) true arrivals =
      .ok none (afterTimeout st) [packOk (some m) st.msgSeq] := by
    apply requestRun_timeout st (some m) arrivals _ _ hnone
    · simp only [dimAssertOk]
      rw [hdim]
      simp
    · exact ⟨_, packUDP_some_eq m st.msgSeq st.cdim.1 st.cdim.2 hdim hr hc hseq hch⟩
  simp only [clientSet, hsync, hset]

/-- C4 amended witness: concrete client with 42 prior timeouts; `set`
with no reply returns normally. -/
theorem timeouts_always_swallowed_witness :
    clientSet ⟨(1, 1), true, 3, 42⟩ [[(.finite 1, .finite 0, .finite 0)]] [] =
      .ok none (afterTimeout ⟨(1, 1), true, 3, 42⟩)
        [packOk (some [[(.finite 1, .finite 0, .finite 0)]]) 3] :=
  timeouts_always_swallowed ⟨(1, 1), true, 3, 42⟩ [[(.finite 1, .finite 0, .finite 0)]] []
    (by decide) (by decide) (by decide) (by decide) (by decide) rfl
    (fun rx hrx => absurd hrx (List.not_mem_nil rx))

/-- C5: every display implementation rejects a frame whose dimensions
differ from its own with a dimension-mismatch error before applying or
sending anything: `FakeDisplay.set` and `LocalLedDisplay.set` fail
their `assert` and leave the stored matrix unchanged, and the network
client's `_request_impl` fails its `assert` before sending a datagram. -/
theorem set_rejects_dim_mismatch (g : F32Val → F32Val) (fd : FakeDisplay)
    (ld : LocalLedDisplay) (st : ClientSt) (m : Frame) (r c : Nat)
    (hm : getDim m = .ok (r, c))
    (hf : (r, c) ≠ fd.fdim) (hl : (r, c) ≠ ld.ldim) (hc : (r, c) ≠ st.cdim)
    (w : Bool) (arr : List (List Nat)) :
    fakeSet fd m = .error .assertionError ∧
    localSet g ld m = .error .assertionError ∧
    requestImpl st (some m) w arr = .exn .assertionError st [] := by
  refine ⟨?_, ?_, ?_⟩
  · simp only [fakeSet, hm, Bind.bind, Except.bind]
    rw [if_neg hf]
  · simp only [localSet, hm, Bind.bind, Except.bind]
    rw [if_neg hl]
  · simp only [requestImpl, dimAssertOk, hm]
    rw [if_neg (by simpa using hc)]

/-- C5 witness: a 2-by-1 frame offered to 1-by-1 displays and a 1-by-1
network client is rejected by all three. -/
theorem set_rejects_dim_mismatch_witness :
    fakeSet ⟨(1, 1), [[(.finite 0, .finite 0, .finite 0)]]⟩
        [[(.finite 0, .finite 0, .finite 0)], [(.finite 0, .finite 0, .finite 0)]] =
      .error .assertionError ∧
    localSet (fun v => v) ⟨true, (1, 1), [[(.finite 0, .finite 0, .finite 0)]], []⟩
        [[(.finite 0, .finite 0, .finite 0)], [(.finite 0, .finite 0, .finite 0)]] =
      .error .assertionError ∧
    requestImpl ⟨(1, 1), true, 0, 0⟩ (some [[(.finite 0, .finite 0, .finite 0)],
        [(.finite 0, .finite 0, .finite 0)]]) true [] =
      .exn .assertionError ⟨(1, 1), true, 0, 0⟩ [] :=
  set_rejects_dim_mismatch (fun v => v) ⟨(1, 1), [[(.finite 0, .finite 0, .finite 0)]]⟩
    ⟨true, (1, 1), [[(.finite 0, .finite 0, .finite 0)]], []⟩ ⟨(1, 1), true, 0, 0⟩
    _ 2 1 (by decide) (by decide) (by decide) (by decide) true []

/-- C3: the code fails on the spec's well-formed minimal frame-carrying
packet. A 12-byte packet declaring a zero-area frame (rows = cols = 0)
reaches `min(chs)` with an empty channel list, which raises
`ValueError` — an exception class no caller catches (the server catches
only `RuntimeError`), so the batch parse aborts instead of decoding the
packet successfully as the spec requires. -/
theorem zero_area_packet_value_error :
    unpackUDP (beU32 7 ++ beU32 0 ++ beU32 0) = .error .valueError ∧
    parseBatch fakeOps ⟨(1, 1), [[(.finite 0, .finite 0, .finite 0)]]⟩
      [((0, 0), beU32 7 ++ beU32 0 ++ beU32 0)] = .error .valueError := by
  constructor
  · simp [unpackUDP, unpackPayload, beU32, beU32dec, chunkList, chunkListF]
  · simp [parseBatch, parseRequestData, unpackUDP, unpackPayload, beU32, beU32dec, chunkList,
      chunkListF, Bind.bind, Except.bind]

set_option maxRecDepth 100000 in
/-- C2 counterexample: the double 0.1 lies in `[0, 1]` but is not
binary32-representable, so the codec does not round-trip it: encoding a
frame holding channel 0.1 and decoding it back yields channel
13421773/2^27, not 0.1. -/
theorem roundtrip_not_exact_for_tenth :
    unpackUDP (packOk (some [[(.finite (1 / 10), .finite 0, .finite 0)]]) 0) =
      .ok (some [[(.finite (13421773 / 134217728), .finite 0, .finite 0)]], 0) ∧
    (13421773 / 134217728 : ℚ) ≠ 1 / 10 := by
  constructor
  · with_unfolding_all rfl
  · with_unfolding_all decide

lemma heap_read_alloc (l : List Frame) (f : Frame) :
    Heap.read ⟨l ++ [f]⟩ l.length = f := by
  induction l with
  | nil => rfl
  | cons x xs ih => simp only [Heap.read, List.getD] at ih ⊢; simp only [List.cons_append]; exact ih

lemma heap_read_write_ne (h : Heap) (i j : Nat) (f : Frame) (hne : i ≠ j) :
    (h.write i f).read j = h.read j := by
  simp only [Heap.write, Heap.read, List.getD_eq_getElem?_getD]
  rw [List.getElem?_set_ne hne]

lemma quant_formula (x : ℚ) : min (Int.toNat ⌊x⌋) 255 = Int.toNat ⌊min x (255 : ℚ)⌋ := by
  have h255 : ⌊(255 : ℚ)⌋ = 255 := by norm_num
  rcases le_total x 255 with h | h
  · have hf : ⌊x⌋ ≤ 255 := by
      have := Int.floor_le_floor h
      omega
    rw [min_eq_left h]
    omega
  · have hf : 255 ≤ ⌊x⌋ := by
      have := Int.floor_le_floor h
      omega
    rw [min_eq_right h]
    omega

/-- C6 amended: the Local Driver's `get` returns the pre-gamma frame
stored by the last `set` (equal to the frame the caller passed), and
`set` deep-copies, so mutating the caller's frame afterwards never
changes the stored frame; but `get` returns the internal reference
itself — there is no defensive copy on `get` (`return
self._current_matrix`), so the caller holds a mutable alias into the
display's state. -/
theorem get_pre_gamma_copy_on_set :
    (∀ (g : F32Val → F32Val) (ld : LocalLedDisplay) (m : Frame) (ld1 : LocalLedDisplay),
      localSet g ld m = .ok ld1 → localGet ld1 = some m) ∧
    (∀ (h : Heap) (d : FakeDisplayH) (mref : Nat) (h1 : Heap) (d1 : FakeDisplayH),
      fakeSetH h d mref = .ok (h1, d1) →
        h1.read d1.currentRef = h.read mref ∧
        ∀ f, mref < h.cells.length → (h1.write mref f).read d1.currentRef = h.read mref) ∧
    (∀ d : FakeDisplayH, fakeGetH d = d.currentRef) := by
  refine ⟨?_, ?_, fun d => rfl⟩
  · intro g ld m ld1 hset
    simp only [localSet, Bind.bind, Except.bind] at hset
    cases hgd : getDim m with
    | error e => rw [hgd] at hset; exact absurd hset (by simp)
    | ok dm =>
        rw [hgd] at hset
        dsimp only at hset
        by_cases hdm : dm = ld.ldim
        · rw [if_pos hdm] at hset
          cases hfl : flattenBytes ld.ldim (if ld.gammaCorrect then gammaCorrected g m else m) with
          | error e => rw [hfl] at hset; exact absurd hset (by simp)
          | ok bytes =>
              rw [hfl] at hset
              dsimp only at hset
              injection hset with hset
              rw [← hset]
              rfl
        · rw [if_neg hdm] at hset
          exact absurd hset (by simp)
  · intro h d mref h1 d1 hset
    simp only [fakeSetH, Bind.bind, Except.bind] at hset
    cases hgd : getDim (h.read mref) with
    | error e => rw [hgd] at hset; exact absurd hset (by simp)
    | ok dm =>
        rw [hgd] at hset
        dsimp only at hset
        by_cases hdm : dm = d.hdim
        · rw [if_pos hdm] at hset
          simp only [Heap.alloc] at hset
          injection hset with hset
          injection hset with hh hd
          constructor
          · rw [← hh, ← hd]
            exact heap_read_alloc h.cells (h.read mref)
          · intro f hlt
            rw [← hh, ← hd]
            have hne : mref ≠ h.cells.length := by omega
            calc ((⟨h.cells ++ [h.read mref]⟩ : Heap).write mref f).read h.cells.length
                = (⟨h.cells ++ [h.read mref]⟩ : Heap).read h.cells.length :=
                  heap_read_write_ne _ _ _ _ hne
              _ = h.read mref := heap_read_alloc h.cells (h.read mref)
        · rw [if_neg hdm] at hset
          exact absurd hset (by simp)

/-- C6 amended witness: a concrete Local Driver `set` (gamma enabled)
stores exactly the pre-gamma frame that `get` then returns; a concrete
fake-display `set` deep-copies into a fresh heap cell equal to the
caller's frame; and `get` returns the internal reference. -/
theorem get_pre_gamma_copy_on_set_witness :
    localGet ⟨true, (1, 1), [[(.finite 0, .finite 0, .finite 0)]], [[0, 0, 0]]⟩ =
      some [[(.finite 0, .finite 0, .finite 0)]] ∧
    Heap.read ⟨[[[(.finite 0, .finite 0, .finite 0)]], [[(.finite 0, .finite 0, .finite 0)]]]⟩
      (FakeDisplayH.currentRef ⟨(1, 1), 1⟩) =
        Heap.read ⟨[[[(.finite 0, .finite 0, .finite 0)]]]⟩ 0 ∧
    fakeGetH ⟨(1, 1), 1⟩ = 1 := by
  refine ⟨?_, ?_, get_pre_gamma_copy_on_set.2.2 ⟨(1, 1), 1⟩⟩
  · exact get_pre_gamma_copy_on_set.1 (fun v => v)
      ⟨true, (1, 1), [[(.finite 1, .finite 1, .finite 1)]], []⟩
      [[(.finite 0, .finite 0, .finite 0)]]
      ⟨true, (1, 1), [[(.finite 0, .finite 0, .finite 0)]], [[0, 0, 0]]⟩
      (by with_unfolding_all rfl)
  · exact (get_pre_gamma_copy_on_set.2.1 ⟨[[[(.finite 0, .finite 0, .finite 0)]]]⟩ ⟨(1, 1), 0⟩ 0
      ⟨[[[(.finite 0, .finite 0, .finite 0)]], [[(.finite 0, .finite 0, .finite 0)]]]⟩ ⟨(1, 1), 1⟩
      (by rfl)).1

/-- C6 counterexample: there is no defensive copy on `get`. On a
concrete fake display, `set` stores the frame at a fresh reference;
mutating the object whose reference `get` returns changes the display's
stored current frame (it reads back as the mutated all-white frame, no
longer the all-black frame that was set). -/
theorem get_alias_mutation_cex :
    fakeSetH ⟨[[[(.finite 0, .finite 0, .finite 0)]]]⟩ ⟨(1, 1), 0⟩ 0 =
      .ok (⟨[[[(.finite 0, .finite 0, .finite 0)]], [[(.finite 0, .finite 0, .finite 0)]]]⟩,
           ⟨(1, 1), 1⟩) ∧
    ((⟨[[[(.finite 0, .finite 0, .finite 0)]], [[(.finite 0, .finite 0, .finite 0)]]]⟩ : Heap).write
        (fakeGetH ⟨(1, 1), 1⟩) [[(.finite 1, .finite 1, .finite 1)]]).read
      (FakeDisplayH.currentRef ⟨(1, 1), 1⟩) = [[(.finite 1, .finite 1, .finite 1)]] ∧
    ([[(.finite 1, .finite 1, .finite 1)]] : Frame) ≠ [[(.finite 0, .finite 0, .finite 0)]] := by
  refine ⟨by rfl, by rfl, ?_⟩
  simp

lemma flatten11 (q : ℚ) (h0 : 0 ≤ q) (h1 : q ≤ 1) :
    flattenBytes (1, 1) [[(.finite q, .finite q, .finite q)]] =
      .ok [quantF32 (.finite q), quantF32 (.finite q), quantF32 (.finite q)] := by
  simp only [flattenBytes, List.reverse_cons, List.reverse_nil, List.nil_append, List.enum,
    List.enumFrom, List.map_cons, List.map_nil, Nat.zero_mod, if_true, ite_true,
    List.flatMap_cons, List.flatMap_nil, Color.channels, List.append_nil, List.all_cons,
    List.all_nil, List.length_cons, List.length_nil]
  rw [show fLe (.finite 0) (.finite q) = true from by simp [fLe, h0],
      show fLe (.finite q) (.finite 1) = true from by simp [fLe, h1]]
  rfl

/-- C7: with gamma enabled the Local Driver sends, for input channel
value 1/2 whose binary64 gamma power `(0.5) ** 2.3` is the abstract
value `q`, exactly the byte `floor(min(q * 256, 255))` for each of the
three channels — the code's `min(int(ch * 256), 255)` agrees with the
claim's `floor(min(...))` form — and stores the pre-gamma frame. -/
theorem gamma_quantization_formula (g : F32Val → F32Val) (q : ℚ)
    (ld : LocalLedDisplay)
    (hg : g (.finite (1 / 2)) = .finite q) (h0 : 0 ≤ q) (h1 : q ≤ 1)
    (hdim : ld.ldim = (1, 1)) (hgc : ld.gammaCorrect = true) :
    localSet g ld [[(.finite (1 / 2), .finite (1 / 2), .finite (1 / 2))]] =
      .ok { ld with current := [[(.finite (1 / 2), .finite (1 / 2), .finite (1 / 2))]],
                    spiLog := ld.spiLog ++
                      [List.replicate 3 (Int.toNat ⌊min (q * 256) (255 : ℚ)⌋)] } := by
  have hq : quantF32 (.finite q) = Int.toNat ⌊min (q * 256) (255 : ℚ)⌋ := by
    simp only [quantF32]
    exact quant_formula (q * 256)
  have hgd : getDim [[(.finite (1 / 2), .finite (1 / 2), .finite (1 / 2))]] = .ok (1, 1) := rfl
  simp only [localSet, Bind.bind, Except.bind, hgd]
  rw [if_pos hdim.symm, hgc]
  simp only [if_true, ite_true, gammaCorrected, List.map_cons, List.map_nil, hg, hdim]
  rw [flatten11 q h0 h1]
  rw [hq]
  rfl

/-- C7 witness: a concrete gamma function sending 1/2 to the rational
0.2030631976 (the binary64 value of `0.5 ** 2.3` to 10 digits) on a
concrete 1-by-1 display: the theorem applies, and the resulting byte is
51. -/
theorem gamma_quantization_formula_witness :
    localSet (fun _ => .finite (2030631976 / 10000000000))
        ⟨true, (1, 1), [[(.finite 0, .finite 0, .finite 0)]], []⟩
        [[(.finite (1 / 2), .finite (1 / 2), .finite (1 / 2))]] =
      .ok { gammaCorrect := true, ldim := (1, 1),
            current := [[(.finite (1 / 2), .finite (1 / 2), .finite (1 / 2))]],
            spiLog := [] ++ [List.replicate 3
              (Int.toNat ⌊min ((2030631976 / 10000000000 : ℚ) * 256) (255 : ℚ)⌋)] } ∧
    Int.toNat ⌊min ((2030631976 / 10000000000 : ℚ) * 256) (255 : ℚ)⌋ = 51 := by
  constructor
  · exact gamma_quantization_formula (fun _ => .finite (2030631976 / 10000000000))
      (2030631976 / 10000000000)
      ⟨true, (1, 1), [[(.finite 0, .finite 0, .finite 0)]], []⟩
      rfl (by norm_num) (by norm_num) rfl rfl
  · rw [min_eq_left (by norm_num)]
    rw [show ⌊(2030631976 / 10000000000 : ℚ) * 256⌋ = 51 by
      rw [Int.floor_eq_iff]
      constructor <;> norm_num]
    rfl

lemma beU32dec_beU32 (n : Nat) (h : n < 2 ^ 32) : beU32dec (beU32 n) = n := by
  simp only [beU32, beU32dec, List.foldl]
  omega

lemma chunk_flatMap (k : Nat) (hk : 1 ≤ k) (l : List α) (f : α → List β)
    (h : ∀ x ∈ l, (f x).length = k) :
    chunkList k (l.flatMap f) = l.map f := by
  induction l with
  | nil => rfl
  | cons x xs ih =>
      have hx : (f x).length = k := h x (by simp)
      cases hfx : f x with
      | nil => rw [hfx] at hx; simp at hx; omega
      | cons y ys =>
          rw [hfx] at hx
          simp only [List.length_cons] at hx
          have hys : ys.length = k - 1 := by omega
          simp only [List.flatMap_cons, hfx, List.cons_append, chunkList_cons, List.map_cons]
          have ht : (ys ++ xs.flatMap f).take (k - 1) = ys := List.take_left' hys
          have hd : (ys ++ xs.flatMap f).drop (k - 1) = xs.flatMap f := List.drop_left' hys
          rw [ht, hd]
          rw [ih (fun a ha => h a (by simp [ha])), ← hfx]

lemma colorsOf_flatMap (l : List Color) :
    colorsOf (l.flatMap Color.channels) = l := by
  induction l with
  | nil => rfl
  | cons x xs ih =>
      simp only [List.flatMap_cons, Color.channels, List.cons_append, List.nil_append]
      show colorsOf (x.1 :: x.2.1 :: x.2.2 :: xs.flatMap Color.channels) = x :: xs
      rw [colorsOf, ih]

lemma flatten_flatMap (m : List (List α)) (g : α → List β) :
    m.flatten.flatMap g = m.flatMap (fun row => row.flatMap g) := by
  induction m with
  | nil => rfl
  | cons row rest ih => simp only [List.flatten_cons, List.flatMap_cons, List.flatMap_append, ih]

lemma frameChannels_eq_flatten (m : Frame) :
    frameChannels m = m.flatten.flatMap Color.channels := by
  rw [frameChannels, flatten_flatMap]

lemma chunk_flatten (c : Nat) (hc : 1 ≤ c) (m : List (List α))
    (h : ∀ row ∈ m, row.length = c) :
    chunkList c m.flatten = m := by
  have h2 := chunk_flatMap c hc m (fun row => row) h
  rw [List.flatMap_def, List.map_id'] at h2
  exact h2

lemma pyMin_mem (c : F32Val) (cs : List F32Val) : pyMin c cs = c ∨ pyMin c cs ∈ cs := by
  induction cs generalizing c with
  | nil => exact Or.inl rfl
  | cons x xs ih =>
      have hstep : pyMin c (x :: xs) = pyMin (if fLt x c then x else c) xs := rfl
      rw [hstep]
      rcases ih (if fLt x c then x else c) with h | h
      · rw [h]
        split
        · exact Or.inr (by simp)
        · exact Or.inl rfl
      · exact Or.inr (by simp [h])

lemma pyMax_mem (c : F32Val) (cs : List F32Val) : pyMax c cs = c ∨ pyMax c cs ∈ cs := by
  induction cs generalizing c with
  | nil => exact Or.inl rfl
  | cons x xs ih =>
      have hstep : pyMax c (x :: xs) = pyMax (if fLt c x then x else c) xs := rfl
      rw [hstep]
      rcases ih (if fLt c x then x else c) with h | h
      · rw [h]
        split
        · exact Or.inr (by simp)
        · exact Or.inl rfl
      · exact Or.inr (by simp [h])

lemma minmax_pass (c : F32Val) (cs : List F32Val)
    (h : ∀ v ∈ c :: cs, chIn01 v = true) :
    (fLt (pyMin c cs) (.finite 0) || fLt (.finite 1) (pyMax c cs)) = false := by
  have hmin : chIn01 (pyMin c cs) = true := by
    rcases pyMin_mem c cs with hm | hm
    · rw [hm]; exact h c (by simp)
    · exact h _ (by simp [hm])
  have hmax : chIn01 (pyMax c cs) = true := by
    rcases pyMax_mem c cs with hm | hm
    · rw [hm]; exact h c (by simp)
    · exact h _ (by simp [hm])
  cases hvmin : pyMin c cs with
  | finite q =>
      cases hvmax : pyMax c cs with
      | finite p =>
          rw [hvmin] at hmin
          rw [hvmax] at hmax
          simp only [chIn01, Bool.and_eq_true, decide_eq_true_eq] at hmin hmax
          simp only [fLt, Bool.or_eq_false_iff, decide_eq_false_iff_not]
          constructor
          · exact not_lt.mpr hmin.1
          · exact not_lt.mpr hmax.2
      | posInf => rw [hvmax] at hmax; simp [chIn01] at hmax
      | negInf => rw [hvmax] at hmax; simp [chIn01] at hmax
      | nan => rw [hvmax] at hmax; simp [chIn01] at hmax
  | posInf => rw [hvmin] at hmin; simp [chIn01] at hmin
  | negInf => rw [hvmin] at hmin; simp [chIn01] at hmin
  | nan => rw [hvmin] at hmin; simp [chIn01] at hmin

lemma unpackPayload_of_pack (m : Frame) (seq r c : Nat)
    (hd : getDim m = .ok (r, c)) (hc : 1 ≤ c) (hr32 : r < 2 ^ 32) (hc32 : c < 2 ^ 32)
    (hch : ∀ v ∈ frameChannels m, chIn01 v = true ∧ decodeF32 (encodeF32 v) = v) :
    unpackPayload seq
      (beU32 r ++ (beU32 c ++ ((frameChannels m).map (fun v => beU32 (encodeF32 v))).flatten)) =
      .ok (some m, seq) := by
  have hr1 : 1 ≤ r := by
    cases m with
    | nil => simp [getDim] at hd
    | cons row rest =>
        have := (getDim_spec _ _ _ hd).1
        simp only [List.length_cons] at this
        omega
  have hlenchs : (frameChannels m).length = 3 * (r * c) := frameChannels_length m r c hd
  have hflatlen : (((frameChannels m).map (fun v => beU32 (encodeF32 v))).flatten).length =
      4 * (frameChannels m).length := flatten_map_beU32_length (frameChannels m)
  have hplen : (beU32 r ++ (beU32 c ++
      ((frameChannels m).map (fun v => beU32 (encodeF32 v))).flatten)).length =
      8 + 4 * (frameChannels m).length := by
    simp only [List.length_append, beU32_length, hflatlen]
    omega
  have htake4 : (beU32 r ++ (beU32 c ++
      ((frameChannels m).map (fun v => beU32 (encodeF32 v))).flatten)).take 4 = beU32 r :=
    List.take_left' (beU32_length r)
  have hdrop4 : (beU32 r ++ (beU32 c ++
      ((frameChannels m).map (fun v => beU32 (encodeF32 v))).flatten)).drop 4 =
      beU32 c ++ ((frameChannels m).map (fun v => beU32 (encodeF32 v))).flatten :=
    List.drop_left' (beU32_length r)
  have hdrop8 : (beU32 r ++ (beU32 c ++
      ((frameChannels m).map (fun v => beU32 (encodeF32 v))).flatten)).drop 8 =
      ((frameChannels m).map (fun v => beU32 (encodeF32 v))).flatten := by
    rw [show (8 : Nat) = 4 + 4 by rfl, ← List.drop_drop, hdrop4]
    exact List.drop_left' (beU32_length c)
  have hdecoded : (chunkList 4
      (((frameChannels m).map (fun v => beU32 (encodeF32 v))).flatten)).map
        (fun w => decodeF32 (beU32dec w)) = frameChannels m := by
    rw [← List.flatMap_def, chunk_flatMap 4 (by omega) _ _ (fun v _ => beU32_length _)]
    rw [List.map_map]
    calc (frameChannels m).map ((fun w => decodeF32 (beU32dec w)) ∘ fun v => beU32 (encodeF32 v))
        = (frameChannels m).map (fun v => v) := by
          apply List.map_congr_left
          intro v hv
          simp only [Function.comp_apply]
          rw [beU32dec_beU32 (encodeF32 v) (encodeF32_lt v), (hch v hv).2]
      _ = frameChannels m := List.map_id' _
  simp only [unpackPayload, hplen, htake4, hdrop4, hdrop8, hdecoded]
  rw [if_neg (by omega)]
  rw [if_neg (by omega)]
  rw [beU32dec_beU32 r hr32]
  have htakec : (beU32 c ++
      ((frameChannels m).map (fun v => beU32 (encodeF32 v))).flatten).take 4 = beU32 c :=
    List.take_left' (beU32_length c)
  rw [htakec, beU32dec_beU32 c hc32]
  rw [if_neg (by omega)]
  have hcolors : colorsOf (frameChannels m) = m.flatten := by
    rw [frameChannels_eq_flatten]
    exact colorsOf_flatMap m.flatten
  have hchunk : chunkList c m.flatten = m :=
    chunk_flatten c hc m (getDim_spec m r c hd).2
  cases hchs : frameChannels m with
  | nil =>
      rw [hchs] at hlenchs
      simp at hlenchs
      omega
  | cons ch0 chrest =>
      have hvalid := minmax_pass ch0 chrest (by rw [← hchs]; exact fun v hv => (hch v hv).1)
      dsimp only
      rw [hvalid]
      simp only [Bool.false_eq_true, if_false]
      rw [← hchs, hcolors, hchunk]

/-- C2 amended: the codec round-trips exactly those frames whose
channels are binary32-representable. For every non-degenerate
rectangular frame (`rows ≥ 1`, `cols ≥ 1`, both below `2^32`) whose
channels lie in `[0, 1]` and are exactly representable in IEEE-754
binary32 (round-tripping through the 32-bit pattern is the identity),
and every sequence number below `2^32`, decoding the packed bytes gives
back exactly the frame and the sequence number. For channels that are
not binary32-representable (say 0.1) or zero-area frames this fails. -/
theorem roundtrip_exact_for_representable (m : Frame) (seq r c : Nat)
    (hd : getDim m = .ok (r, c)) (hc : 1 ≤ c) (hr32 : r < 2 ^ 32) (hc32 : c < 2 ^ 32)
    (hs : seq < 2 ^ 32)
    (hch : ∀ v ∈ frameChannels m, chIn01 v = true ∧ decodeF32 (encodeF32 v) = v) :
    ∃ bytes, packUDP (some m) seq = .ok bytes ∧ unpackUDP bytes = .ok (some m, seq) := by
  have hch1 : ∀ v ∈ frameChannels m, chIn01 v = true := fun v hv => (hch v hv).1
  have hpack := packUDP_some_eq m seq r c hd hr32 hc32 hs hch1
  refine ⟨_, hpack, ?_⟩
  have hr1 : 1 ≤ r := by
    cases m with
    | nil => simp [getDim] at hd
    | cons row rest =>
        have := (getDim_spec _ _ _ hd).1
        simp only [List.length_cons] at this
        omega
  have hlenchs : (frameChannels m).length = 3 * (r * c) := frameChannels_length m r c hd
  have hflatlen : (((frameChannels m).map (fun v => beU32 (encodeF32 v))).flatten).length =
      4 * (frameChannels m).length := flatten_map_beU32_length (frameChannels m)
  have hassoc : beU32 seq ++ beU32 r ++ beU32 c ++
      ((frameChannels m).map (fun v => beU32 (encodeF32 v))).flatten =
      beU32 seq ++ (beU32 r ++ (beU32 c ++
        ((frameChannels m).map (fun v => beU32 (encodeF32 v))).flatten)) := by
    simp [List.append_assoc]
  rw [hassoc]
  have hdlen : (beU32 seq ++ (beU32 r ++ (beU32 c ++
      ((frameChannels m).map (fun v => beU32 (encodeF32 v))).flatten))).length =
      12 + 4 * (frameChannels m).length := by
    simp only [List.length_append, beU32_length, hflatlen]
    omega
  have htake : (beU32 seq ++ (beU32 r ++ (beU32 c ++
      ((frameChannels m).map (fun v => beU32 (encodeF32 v))).flatten))).take 4 = beU32 seq :=
    List.take_left' (beU32_length seq)
  have hdrop : (beU32 seq ++ (beU32 r ++ (beU32 c ++
      ((frameChannels m).map (fun v => beU32 (encodeF32 v))).flatten))).drop 4 =
      beU32 r ++ (beU32 c ++ ((frameChannels m).map (fun v => beU32 (encodeF32 v))).flatten) :=
    List.drop_left' (beU32_length seq)
  simp only [unpackUDP, hdlen, htake, hdrop]
  rw [if_neg (by omega)]
  rw [beU32dec_beU32 seq hs]
  rw [if_pos (by simp only [List.length_append, beU32_length, hflatlen]; omega)]
  exact unpackPayload_of_pack m seq r c hd hc hr32 hc32 hch

set_option maxRecDepth 100000 in
/-- C2 amended witness: a concrete 1-by-2 frame with the
binary32-representable channels 0, 1/2, 1, 3/4, 1/4, 1/8 and sequence
number 7 round-trips exactly. -/
theorem roundtrip_exact_for_representable_witness :
    ∃ bytes,
      packUDP (some [[(.finite 0, .finite (1 / 2), .finite 1),
        (.finite (3 / 4), .finite (1 / 4), .finite (1 / 8))]]) 7 = .ok bytes ∧
      unpackUDP bytes = .ok (some [[(.finite 0, .finite (1 / 2), .finite 1),
        (.finite (3 / 4), .finite (1 / 4), .finite (1 / 8))]], 7) := by
  apply roundtrip_exact_for_representable
    [[(.finite 0, .finite (1 / 2), .finite 1),
      (.finite (3 / 4), .finite (1 / 4), .finite (1 / 8))]] 7 1 2
    (by rfl) (by omega) (by omega) (by omega) (by omega)
  intro v hv
  rw [show frameChannels [[(.finite 0, .finite (1 / 2), .finite 1),
      (.finite (3 / 4), .finite (1 / 4), .finite (1 / 8))]] =
      [.finite 0, .finite (1 / 2), .finite 1, .finite (3 / 4), .finite (1 / 4),
        .finite (1 / 8)] from rfl] at hv
  simp only [List.mem_cons, List.not_mem_nil, or_false] at hv
  rcases hv with rfl | rfl | rfl | rfl | rfl | rfl <;>
    exact ⟨by with_unfolding_all decide, by with_unfolding_all rfl⟩

lemma unpackPayload_ok_seq (q : Nat) (p : List Nat) (mm : Option Frame) (s : Nat)
    (h : unpackPayload q p = .ok (mm, s)) : s = q := by
  simp only [unpackPayload] at h
  split at h
  · exact absurd h (by simp)
  · split at h
    · exact absurd h (by simp)
    · split at h
      · exact absurd h (by simp)
      · split at h
        · exact absurd h (by simp)
        · split at h
          · exact absurd h (by simp)
          · injection h with h2
            simp only [Prod.mk.injEq] at h2
            exact h2.2.symm

lemma unpackUDP_ok_seq (data : List Nat) (mm : Option Frame) (s : Nat)
    (h : unpackUDP data = .ok (mm, s)) : s = beU32dec (data.take 4) := by
  simp only [unpackUDP] at h
  split at h
  · exact absurd h (by simp)
  · split at h
    · exact unpackPayload_ok_seq _ _ _ _ h
    · injection h with h2
      simp only [Prod.mk.injEq] at h2
      exact h2.2.symm

lemma beU32dec_bound (l : List Nat) (acc : Nat) (h : ∀ b ∈ l, b < 256) :
    List.foldl (fun a b => a * 256 + b) acc l < (acc + 1) * 256 ^ l.length := by
  induction l generalizing acc with
  | nil => simp
  | cons b bs ih =>
      have hb : b < 256 := h b (by simp)
      have := ih (acc * 256 + b) (fun x hx => h x (by simp [hx]))
      calc List.foldl (fun a b => a * 256 + b) (acc * 256 + b) bs
          < (acc * 256 + b + 1) * 256 ^ bs.length := this
        _ ≤ ((acc + 1) * 256) * 256 ^ bs.length := by
            apply Nat.mul_le_mul_right
            omega
        _ = (acc + 1) * 256 ^ (b :: bs).length := by
            simp only [List.length_cons]
            ring

lemma beU32dec_lt (l : List Nat) (h : ∀ b ∈ l, b < 256) (hl : l.length ≤ 4) :
    beU32dec l < 2 ^ 32 := by
  have h1 := beU32dec_bound l 0 h
  have h2 : (256 : Nat) ^ l.length ≤ 256 ^ 4 := Nat.pow_le_pow_right (by omega) hl
  simp only [beU32dec]
  norm_num at h1 h2 ⊢
  omega

lemma unpack_seq_lt (data : List Nat) (mm : Option Frame) (s : Nat)
    (hb : ∀ b ∈ data, b < 256) (h : unpackUDP data = .ok (mm, s)) : s < 2 ^ 32 := by
  rw [unpackUDP_ok_seq data mm s h]
  exact beU32dec_lt _ (fun b hbm => hb b (List.take_subset 4 data hbm))
    (by simp [List.length_take])

lemma parseRequestData_ok {D : Type} (ops : DriverOps D) (d : D) (data : List Nat)
    (mm : Option Frame) (s : Nat) (h : parseRequestData ops d data = .ok (mm, s)) :
    unpackUDP data = .ok (mm, s) ∧
      (matrixTruthy mm = true → ∃ m2, mm = some m2 ∧ getDim m2 = .ok (ops.ddim d)) := by
  simp only [parseRequestData, Bind.bind, Except.bind] at h
  cases hu : unpackUDP data with
  | error e => rw [hu] at h; exact absurd h (by simp)
  | ok v =>
      obtain ⟨mx, sq⟩ := v
      rw [hu] at h
      cases mx with
      | none =>
          dsimp only at h
          refine ⟨h, ?_⟩
          intro ht
          injection h with h2
          simp only [Prod.mk.injEq] at h2
          rw [← h2.1] at ht
          simp [matrixTruthy] at ht
      | some m2 =>
          dsimp only at h
          by_cases he : m2.isEmpty = true
          · simp only [he, Bool.not_true, Bool.false_eq_true, if_false] at h
            refine ⟨h, ?_⟩
            intro ht
            injection h with h2
            simp only [Prod.mk.injEq] at h2
            rw [← h2.1] at ht
            simp [matrixTruthy, he] at ht
          · simp only [Bool.not_eq_true] at he
            simp only [he, Bool.not_false, if_true] at h
            cases hg : getDim m2 with
            | error e => rw [hg] at h; exact absurd h (by simp)
            | ok dm =>
                rw [hg] at h
                dsimp only at h
                split at h
                · exact absurd h (by simp)
                · rename_i hdm
                  rw [ne_eq, not_not] at hdm
                  refine ⟨h, ?_⟩
                  intro ht
                  injection h with h2
                  simp only [Prod.mk.injEq] at h2
                  exact ⟨m2, h2.1.symm, by rw [hg, hdm]⟩

lemma parseBatch_sound {D : Type} (ops : DriverOps D) (d : D)
    (pend : List (Addr × List Nat)) (rs : List Request)
    (h : parseBatch ops d pend = .ok rs)
    (hb : ∀ p ∈ pend, ∀ b ∈ p.2, b < 256) :
    ∀ r ∈ rs, r.seq < 2 ^ 32 ∧
      (matrixTruthy r.matrix = true →
        ∃ m2, r.matrix = some m2 ∧ getDim m2 = .ok (ops.ddim d)) := by
  induction pend generalizing rs with
  | nil =>
      simp only [parseBatch] at h
      injection h with h2
      rw [← h2]
      exact fun r hr => absurd hr (List.not_mem_nil r)
  | cons p rest ih =>
      obtain ⟨a, bs⟩ := p
      simp only [parseBatch] at h
      cases hp : parseRequestData ops d bs with
      | ok v =>
          obtain ⟨mx, sq⟩ := v
          rw [hp] at h
          cases hrec : parseBatch ops d rest with
          | error e => rw [hrec] at h; exact absurd h (by simp [Except.map])
          | ok rs2 =>
              rw [hrec] at h
              simp only [Except.map] at h
              injection h with h2
              subst h2
              intro r hr
              rcases List.mem_cons.mp hr with hr | hr
              · subst hr
                obtain ⟨hu, hdim⟩ := parseRequestData_ok ops d bs mx sq hp
                exact ⟨unpack_seq_lt bs mx sq (hb (a, bs) (by simp)) hu, hdim⟩
              · exact ih rs2 hrec (fun p hp2 => hb p (by simp [hp2])) r hr
      | error e =>
          rw [hp] at h
          cases e with
          | runtimeError => exact ih rs h (fun p hp2 => hb p (by simp [hp2]))
          | valueError => exact absurd h (by simp)
          | assertionError => exact absurd h (by simp)
          | timeoutError => exact absurd h (by simp)

lemma fake_ack_ok (d : FakeDisplay) (hinv : fakeInv d) (s : Nat) (hs : s < 2 ^ 32) :
    packUDP (fakeGet d) s = .ok (packOk (fakeGet d) s) := by
  obtain ⟨hgd, hr, hc, hok⟩ := hinv
  have hch : ∀ v ∈ frameChannels d.current, chIn01 v = true := by
    intro v hv
    simp only [frameOk01] at hok
    exact List.all_eq_true.mp hok v hv
  have hp := packUDP_some_eq d.current s d.fdim.1 d.fdim.2 (by rw [hgd]) hr hc hs hch
  show packUDP (some d.current) s = .ok (packOk (some d.current) s)
  rw [hp, packOk_eq _ _ _ hp]

lemma serveLoop_no_win (rs1 rest : List Request) (lastIdx : Option Nat) (idx : Nat)
    (tr : SrvTrack) (d : FakeDisplay) (acks : List (Addr × List Nat)) (slog : List Frame)
    (hinv : fakeInv d)
    (hseq : ∀ r ∈ rs1, r.seq < 2 ^ 32)
    (hni : ∀ j, lastIdx = some j → ¬(idx ≤ j ∧ j < idx + rs1.length)) :
    serveLoop fakeOps lastIdx idx (rs1 ++ rest) tr d acks slog =
      serveLoop fakeOps lastIdx (idx + rs1.length) rest (trFold rs1 tr) d
        (acks ++ rs1.map (fun r => (r.addr, packOk (fakeGet d) r.seq))) slog := by
  induction rs1 generalizing idx tr acks with
  | nil => simp [trFold]
  | cons r rs ih =>
      have hack := fake_ack_ok d hinv r.seq (hseq r (by simp))
      have hnw : ¬(some idx = lastIdx) := by
        intro he
        exact hni idx he.symm ⟨le_rfl, by simp only [List.length_cons]; omega⟩
      have hidx : idx + 1 + rs.length = idx + (rs.length + 1) := by omega
      simp only [List.cons_append, serveLoop]
      by_cases ht : matrixTruthy r.matrix = true
      · rw [if_pos ht, if_neg hnw]
        show (packUDP (fakeGet d) r.seq >>= fun ack =>
          serveLoop fakeOps lastIdx (idx + 1) (rs ++ rest) (trackUpdate tr r.addr r.seq) d
            (acks ++ [(r.addr, ack)]) slog) = _
        rw [hack]
        simp only [Bind.bind, Except.bind]
        rw [ih (idx + 1) (trackUpdate tr r.addr r.seq) (acks ++ [(r.addr, packOk (fakeGet d) r.seq)])
          (fun r2 hr2 => hseq r2 (by simp [hr2]))
          (fun j hj => by
            have := hni j hj
            simp only [List.length_cons] at this
            omega)]
        rw [hidx]
        simp only [trFold, List.foldl_cons, ht, if_true, List.map_cons, List.append_assoc,
          List.singleton_append, List.length_cons]
      · rw [if_neg ht]
        show (packUDP (fakeOps.dget d) r.seq >>= fun ack =>
          serveLoop fakeOps lastIdx (idx + 1) (rs ++ rest) tr d (acks ++ [(r.addr, ack)]) slog) = _
        rw [show fakeOps.dget d = fakeGet d from rfl, hack]
        simp only [Bind.bind, Except.bind]
        rw [ih (idx + 1) tr (acks ++ [(r.addr, packOk (fakeGet d) r.seq)])
          (fun r2 hr2 => hseq r2 (by simp [hr2]))
          (fun j hj => by
            have := hni j hj
            simp only [List.length_cons] at this
            omega)]
        rw [hidx]
        simp only [trFold, List.foldl_cons, ht, if_false, List.map_cons, List.append_assoc,
          List.singleton_append, List.length_cons, Bool.false_eq_true]

lemma lastTruthyIdx_none (rs : List Request) (h : ∀ r ∈ rs, matrixTruthy r.matrix = false) :
    lastTruthyIdx rs = none := by
  induction rs with
  | nil => rfl
  | cons r rest ih =>
      simp only [lastTruthyIdx, ih (fun r2 hr2 => h r2 (by simp [hr2])), h r (by simp),
        Bool.false_eq_true, if_false]

lemma lastTruthyIdx_split (rs1 : List Request) (w : Request) (rs2 : List Request)
    (hw : matrixTruthy w.matrix = true) (hrs2 : ∀ r ∈ rs2, matrixTruthy r.matrix = false) :
    lastTruthyIdx (rs1 ++ w :: rs2) = some rs1.length := by
  induction rs1 with
  | nil =>
      simp only [List.nil_append, lastTruthyIdx, lastTruthyIdx_none rs2 hrs2, hw, if_true,
        List.length_nil]
  | cons r rest ih =>
      simp only [List.cons_append, lastTruthyIdx, List.append_eq, ih, List.length_cons]

lemma processRequests_no_update (d : FakeDisplay) (tr : SrvTrack)
    (pending : List (Addr × List Nat)) (rs : List Request)
    (hlen : pending.length ≤ 10)
    (hparse : parseBatch fakeOps d pending = .ok rs)
    (hinv : fakeInv d)
    (hseqs : ∀ r ∈ rs, r.seq < 2 ^ 32)
    (hnone : lastTruthyIdx rs = none) :
    processRequests fakeOps d tr pending = .ok (trFold rs tr, d,
      rs.map (fun r => (r.addr, packOk (some d.current) r.seq)), []) := by
  simp only [processRequests, List.take_of_length_le hlen, hparse, Bind.bind, Except.bind]
  have h1 := serveLoop_no_win rs [] (lastTruthyIdx rs) 0 tr d [] [] hinv hseqs
    (fun j hj => by rw [hnone] at hj; exact absurd hj (by simp))
  rw [List.append_nil] at h1
  rw [h1]
  simp only [serveLoop, List.nil_append]
  rfl

lemma processRequests_with_update (d : FakeDisplay) (tr : SrvTrack)
    (pending : List (Addr × List Nat)) (rs rs1 rs2 : List Request) (w : Request) (Cm : Frame)
    (hlen : pending.length ≤ 10)
    (hparse : parseBatch fakeOps d pending = .ok rs)
    (hinv : fakeInv d)
    (hsplit : rs = rs1 ++ w :: rs2)
    (hw : matrixTruthy w.matrix = true)
    (hrs2 : ∀ r ∈ rs2, matrixTruthy r.matrix = false)
    (hm : w.matrix = some Cm)
    (hdm : getDim Cm = .ok d.fdim)
    (hok : frameOk01 Cm = true)
    (hseqs : ∀ r ∈ rs, r.seq < 2 ^ 32) :
    processRequests fakeOps d tr pending = .ok
      (trFold rs2 (trackUpdate (trFold rs1 tr) w.addr w.seq),
       { d with current := Cm },
       rs1.map (fun r => (r.addr, packOk (some d.current) r.seq)) ++
         (w.addr, packOk (some Cm) w.seq) ::
           rs2.map (fun r => (r.addr, packOk (some Cm) r.seq)),
       [Cm]) := by
  have hinv2 : fakeInv { d with current := Cm } :=
    ⟨hdm, hinv.2.1, hinv.2.2.1, hok⟩
  have hlast : lastTruthyIdx rs = some rs1.length := by
    rw [hsplit]
    exact lastTruthyIdx_split rs1 w rs2 hw hrs2
  simp only [processRequests, List.take_of_length_le hlen, hparse, Bind.bind, Except.bind]
  rw [hlast, hsplit]
  rw [serveLoop_no_win rs1 (w :: rs2) (some rs1.length) 0 tr d [] [] hinv
    (fun r hr => hseqs r (by simp [hsplit, hr]))
    (fun j hj => by injection hj with hj; omega)]
  simp only [Nat.zero_add, List.nil_append, serveLoop, hw, if_true, if_pos rfl]
  rw [hm]
  simp only [Option.getD_some]
  have hset : fakeOps.dset d Cm = .ok { d with current := Cm } := by
    show fakeSet d Cm = _
    simp only [fakeSet, hdm, Bind.bind, Except.bind]
    simp
  rw [hset]
  dsimp only
  have hackw := fake_ack_ok { d with current := Cm } hinv2 w.seq
    (hseqs w (by simp [hsplit]))
  rw [show fakeOps.dget { d with current := Cm } = fakeGet { d with current := Cm } from rfl]
  rw [hackw]
  simp only [Bind.bind, Except.bind]
  have h2 := serveLoop_no_win rs2 [] (some rs1.length) (rs1.length + 1)
    (trackUpdate (trFold rs1 tr) w.addr w.seq) { d with current := Cm }
    ((rs1.map fun r => (r.addr, packOk (fakeGet d) r.seq)) ++
      [(w.addr, packOk (fakeGet { d with current := Cm }) w.seq)]) [Cm]
    hinv2 (fun r hr => hseqs r (by simp [hsplit, hr]))
    (fun j hj => by injection hj with hj; omega)
  rw [List.append_nil] at h2
  rw [h2]
  simp only [serveLoop, List.append_assoc, List.singleton_append]
  rfl

lemma truthy_some (mo : Option Frame) (h : matrixTruthy mo = true) : ∃ mm, mo = some mm := by
  cases mo with
  | none => simp [matrixTruthy] at h
  | some mm => exact ⟨mm, rfl⟩

lemma reqOk01_spec (r : Request) (h : reqOk01 r = true) (mm : Frame)
    (hm : r.matrix = some mm) : frameOk01 mm = true := by
  simp only [reqOk01, hm] at h
  exact h

lemma filter_concat_split (p : Request → Bool) (rs l : List Request) (x : Request)
    (h : rs.filter p = l ++ [x]) :
    ∃ rs1 rs2, rs = rs1 ++ x :: rs2 ∧ (∀ r ∈ rs2, p r = false) ∧ p x = true := by
  induction rs generalizing l with
  | nil => simp at h
  | cons r rest ih =>
      by_cases hp : p r = true
      · rw [List.filter_cons_of_pos hp] at h
        cases l with
        | nil =>
            simp only [List.nil_append, List.cons.injEq] at h
            obtain ⟨hrx, hrest⟩ := h
            refine ⟨[], rest, by rw [hrx]; simp, ?_, by rw [← hrx]; exact hp⟩
            intro r2 hr2
            have := List.filter_eq_nil_iff.mp hrest r2 hr2
            simpa using this
        | cons y l2 =>
            simp only [List.cons_append, List.cons.injEq] at h
            obtain ⟨-, hrest⟩ := h
            obtain ⟨rs1, rs2, hsp, hf, hx⟩ := ih l2 hrest
            exact ⟨r :: rs1, rs2, by rw [hsp, List.cons_append], hf, hx⟩
      · rw [List.filter_cons_of_neg (by simpa using hp)] at h
        obtain ⟨rs1, rs2, hsp, hf, hx⟩ := ih l h
        exact ⟨r :: rs1, rs2, by rw [hsp, List.cons_append], hf, hx⟩

/-- C1: freshest-wins. For a drained batch whose parsed requests carry
exactly three valid frame updates A, B, C in receipt order (plus any
number of query datagrams), the server applies only C's frame, calls
`driver.set` exactly once for the whole batch (the set log is exactly
`[Cm]`), and still acknowledges every parsed request — including A's
and B's — at its own source address. -/
theorem freshest_wins_batch (d : FakeDisplay) (tr : SrvTrack)
    (pending : List (Addr × List Nat)) (rs : List Request) (A B C : Request) (Cm : Frame)
    (hlen : pending.length ≤ 10)
    (hparse : parseBatch fakeOps d pending = .ok rs)
    (hinv : fakeInv d)
    (hbytes : ∀ p ∈ pending, ∀ b ∈ p.2, b < 256)
    (hfilter : rs.filter (fun r => matrixTruthy r.matrix) = [A, B, C])
    (hCm : C.matrix = some Cm)
    (hok : ∀ r ∈ rs, reqOk01 r = true) :
    A ∈ rs ∧ B ∈ rs ∧
    ∃ tr2 acks, processRequests fakeOps d tr pending =
      .ok (tr2, { d with current := Cm }, acks, [Cm]) ∧
      acks.map Prod.fst = rs.map Request.addr := by
  obtain ⟨rs1, rs2, hsplit, hrs2, hC⟩ :=
    filter_concat_split (fun r => matrixTruthy r.matrix) rs [A, B] C hfilter
  have hA : A ∈ rs := by
    have h0 : A ∈ rs.filter (fun r => matrixTruthy r.matrix) := by rw [hfilter]; simp
    exact List.mem_of_mem_filter h0
  have hB : B ∈ rs := by
    have h0 : B ∈ rs.filter (fun r => matrixTruthy r.matrix) := by rw [hfilter]; simp
    exact List.mem_of_mem_filter h0
  have hCrs : C ∈ rs := by rw [hsplit]; simp
  have hsound := parseBatch_sound fakeOps d pending rs hparse hbytes
  have hseqs : ∀ r ∈ rs, r.seq < 2 ^ 32 := fun r hr => (hsound r hr).1
  have hdm : getDim Cm = .ok d.fdim := by
    obtain ⟨m2, hm2, hg⟩ := (hsound C hCrs).2 hC
    rw [hCm] at hm2
    injection hm2 with hm2
    rw [← hm2] at hg
    exact hg
  have hokCm : frameOk01 Cm = true := reqOk01_spec C (hok C hCrs) Cm hCm
  refine ⟨hA, hB, _, _,
    processRequests_with_update d tr pending rs rs1 rs2 C Cm hlen hparse hinv hsplit hC hrs2
      hCm hdm hokCm hseqs, ?_⟩
  rw [hsplit]
  simp only [List.map_append, List.map_cons, List.map_map]
  rfl

set_option maxRecDepth 1000000 in
/-- C1 witness: a concrete batch of four datagrams from three clients —
three 1-by-1 frame updates (black, gray-free: all-zero, mid, all-one)
and one interleaved query — drives exactly one `set` with the last
update's all-one frame and acknowledges all four requests. -/
theorem freshest_wins_batch_witness :
    (⟨(1, 1), some [[(.finite 1, .finite 1, .finite 1)]], 7⟩ : Request) ∈
      ([⟨(1, 1), some [[(.finite 0, .finite 0, .finite 0)]], 5⟩,
        ⟨(1, 2), some [[(.finite 0, .finite 0, .finite 1)]], 6⟩,
        ⟨(2, 2), none, 9⟩,
        ⟨(1, 1), some [[(.finite 1, .finite 1, .finite 1)]], 7⟩] : List Request) ∧
    ∃ tr2 acks,
      processRequests fakeOps ⟨(1, 1), [[(.finite 0, .finite 0, .finite 0)]]⟩ ⟨none, none⟩
        [((1, 1), packOk (some [[(.finite 0, .finite 0, .finite 0)]]) 5),
         ((1, 2), packOk (some [[(.finite 0, .finite 0, .finite 1)]]) 6),
         ((2, 2), packOk none 9),
         ((1, 1), packOk (some [[(.finite 1, .finite 1, .finite 1)]]) 7)] =
        .ok (tr2, { fdim := (1, 1), current := [[(.finite 1, .finite 1, .finite 1)]] }, acks,
          [[[(.finite 1, .finite 1, .finite 1)]]]) ∧
      acks.map Prod.fst = [(1, 1), (1, 2), (2, 2), (1, 1)] := by
  have h := freshest_wins_batch ⟨(1, 1), [[(.finite 0, .finite 0, .finite 0)]]⟩ ⟨none, none⟩
    [((1, 1), packOk (some [[(.finite 0, .finite 0, .finite 0)]]) 5),
     ((1, 2), packOk (some [[(.finite 0, .finite 0, .finite 1)]]) 6),
     ((2, 2), packOk none 9),
     ((1, 1), packOk (some [[(.finite 1, .finite 1, .finite 1)]]) 7)]
    [⟨(1, 1), some [[(.finite 0, .finite 0, .finite 0)]], 5⟩,
     ⟨(1, 2), some [[(.finite 0, .finite 0, .finite 1)]], 6⟩,
     ⟨(2, 2), none, 9⟩,
     ⟨(1, 1), some [[(.finite 1, .finite 1, .finite 1)]], 7⟩]
    ⟨(1, 1), some [[(.finite 0, .finite 0, .finite 0)]], 5⟩
    ⟨(1, 2), some [[(.finite 0, .finite 0, .finite 1)]], 6⟩
    ⟨(1, 1), some [[(.finite 1, .finite 1, .finite 1)]], 7⟩
    [[(.finite 1, .finite 1, .finite 1)]]
    (by decide)
    (by with_unfolding_all rfl)
    ⟨by rfl, by decide, by decide, by with_unfolding_all decide⟩
    (by with_unfolding_all decide)
    (by rfl)
    (by rfl)
    (by with_unfolding_all decide)
  obtain ⟨-, -, tr2, acks, hrun, haddr⟩ := h
  refine ⟨by simp, tr2, acks, hrun, by rw [haddr]; rfl⟩

lemma enumFrom_split (l1 l2 : List α) (n : Nat) :
    List.enumFrom n (l1 ++ l2) = List.enumFrom n l1 ++ List.enumFrom (n + l1.length) l2 := by
  induction l1 generalizing n with
  | nil => simp
  | cons x xs ih =>
      simp only [List.cons_append, List.enumFrom, List.append_eq, ih (n + 1), List.cons.injEq,
        List.length_cons, true_and]
      rw [show n + 1 + xs.length = n + (xs.length + 1) from by omega]

lemma map_enumFrom_const {α β : Type _} (l : List α) (n : Nat) (f : α → β) (g : Nat × α → β)
    (h : ∀ i x, n ≤ i → i < n + l.length → g (i, x) = f x) :
    (List.enumFrom n l).map g = l.map f := by
  induction l generalizing n with
  | nil => rfl
  | cons x xs ih =>
      simp only [List.enumFrom, List.map_cons]
      rw [h n x le_rfl (by simp only [List.length_cons]; omega)]
      rw [ih (n + 1) (fun i y h1 h2 => h i y (by omega) (by simp only [List.length_cons]; omega))]

lemma lastTruthyIdx_none_inv (rs : List Request) (h : lastTruthyIdx rs = none) :
    ∀ r ∈ rs, matrixTruthy r.matrix = false := by
  induction rs with
  | nil => exact fun r hr => absurd hr (List.not_mem_nil r)
  | cons r rest ih =>
      simp only [lastTruthyIdx] at h
      cases hlr : lastTruthyIdx rest with
      | some j => rw [hlr] at h; exact absurd h (by simp)
      | none =>
          rw [hlr] at h
          by_cases ht : matrixTruthy r.matrix = true
          · rw [if_pos ht] at h
            exact absurd h (by simp)
          · intro r2 hr2
            rcases List.mem_cons.mp hr2 with hr2 | hr2
            · rw [hr2]
              exact Bool.not_eq_true _ ▸ ht
            · exact ih hlr r2 hr2

lemma lastTruthyIdx_some_split (rs : List Request) (j : Nat)
    (h : lastTruthyIdx rs = some j) :
    ∃ rs1 w rs2, rs = rs1 ++ w :: rs2 ∧ rs1.length = j ∧ matrixTruthy w.matrix = true ∧
      ∀ r ∈ rs2, matrixTruthy r.matrix = false := by
  induction rs generalizing j with
  | nil => simp [lastTruthyIdx] at h
  | cons r rest ih =>
      simp only [lastTruthyIdx] at h
      cases hlr : lastTruthyIdx rest with
      | some j2 =>
          rw [hlr] at h
          injection h with h2
          obtain ⟨rs1, w, rs2, hsp, hl1, hw, hf⟩ := ih j2 hlr
          exact ⟨r :: rs1, w, rs2, by rw [hsp, List.cons_append],
            by simp only [List.length_cons, hl1]; omega, hw, hf⟩
      | none =>
          rw [hlr] at h
          by_cases ht : matrixTruthy r.matrix = true
          · rw [if_pos ht] at h
            injection h with h2
            exact ⟨[], r, rest, rfl, by simpa using h2, ht,
              lastTruthyIdx_none_inv rest hlr⟩
          · rw [if_neg ht] at h
            exact absurd h (by simp)

lemma getD_append_mid (rs1 : List Request) (w : Request) (rs2 : List Request) (dflt : Request) :
    (rs1 ++ w :: rs2).getD rs1.length dflt = w := by
  induction rs1 with
  | nil => rfl
  | cons r rest ih => simpa [List.getD] using ih

lemma acks_enum (rs1 : List Request) (w : Request) (rs2 : List Request) (init Cm : Frame)
    (F : Nat → Frame)
    (hF1 : ∀ i, i < rs1.length → F i = init)
    (hFw : F rs1.length = Cm)
    (hF2 : ∀ i, rs1.length < i → F i = Cm) :
    (List.enumFrom 0 (rs1 ++ w :: rs2)).map
        (fun p => (p.2.addr, packOk (some (F p.1)) p.2.seq)) =
      rs1.map (fun r => (r.addr, packOk (some init) r.seq)) ++
        (w.addr, packOk (some Cm) w.seq) ::
          rs2.map (fun r => (r.addr, packOk (some Cm) r.seq)) := by
  rw [enumFrom_split]
  simp only [List.map_append, Nat.zero_add]
  congr 1
  · apply map_enumFrom_const
    intro i x h0 hi
    rw [hF1 i (by omega)]
  · simp only [List.enumFrom, List.map_cons, hFw]
    congr 1
    apply map_enumFrom_const
    intro i x h0 hi
    rw [hF2 i (by omega)]

/-- C8: per-datagram acknowledgment. Every successfully parsed datagram
of the batch — frame-carrying or query-only — receives exactly one
acknowledgment, in order, addressed to its own source, packing the
driven display's current frame at acknowledgment time (`ackFrame`:
the initial frame before the winning update is applied, the winning
frame afterwards) together with that datagram's own sequence number;
sequence gaps and duplicates never drop a request (at most one
`driver.set` happens regardless). -/
theorem per_datagram_ack (d : FakeDisplay) (tr : SrvTrack)
    (pending : List (Addr × List Nat)) (rs : List Request)
    (hlen : pending.length ≤ 10)
    (hparse : parseBatch fakeOps d pending = .ok rs)
    (hinv : fakeInv d)
    (hbytes : ∀ p ∈ pending, ∀ b ∈ p.2, b < 256)
    (hok : ∀ r ∈ rs, reqOk01 r = true) :
    ∃ tr2 d2 slog, processRequests fakeOps d tr pending = .ok (tr2, d2,
      rs.enum.map (fun p => (p.2.addr, packOk (some (ackFrame rs d.current p.1)) p.2.seq)),
      slog) ∧ slog.length ≤ 1 := by
  have hsound := parseBatch_sound fakeOps d pending rs hparse hbytes
  have hseqs : ∀ r ∈ rs, r.seq < 2 ^ 32 := fun r hr => (hsound r hr).1
  cases hli : lastTruthyIdx rs with
  | none =>
      have hm : (List.enumFrom 0 rs).map
          (fun p => (p.2.addr, packOk (some (ackFrame rs d.current p.1)) p.2.seq)) =
          rs.map (fun r => (r.addr, packOk (some d.current) r.seq)) := by
        apply map_enumFrom_const
        intro i x h0 hi
        rw [show ackFrame rs d.current i = d.current from by simp [ackFrame, hli]]
      refine ⟨trFold rs tr, d, [], ?_, by simp⟩
      rw [processRequests_no_update d tr pending rs hlen hparse hinv hseqs hli,
        show rs.enum = List.enumFrom 0 rs from rfl, hm]
  | some j =>
      obtain ⟨rs1, w, rs2, hsplit, hlen1, hw, hrs2⟩ := lastTruthyIdx_some_split rs j hli
      obtain ⟨Cm, hCm⟩ := truthy_some w.matrix hw
      have hwrs : w ∈ rs := by rw [hsplit]; simp
      have hdm : getDim Cm = .ok d.fdim := by
        obtain ⟨m2, hm2, hg⟩ := (hsound w hwrs).2 hw
        rw [hCm] at hm2
        injection hm2 with hm2
        rw [← hm2] at hg
        exact hg
      have hokCm : frameOk01 Cm = true := reqOk01_spec w (hok w hwrs) Cm hCm
      have hgetD : rs.getD rs1.length ⟨(0, 0), none, 0⟩ = w := by
        rw [hsplit]
        exact getD_append_mid rs1 w rs2 _
      have hgetDj : rs.getD j ⟨(0, 0), none, 0⟩ = w := by
        rw [← hlen1]
        exact hgetD
      have hAF1 : ∀ i, i < rs1.length → ackFrame rs d.current i = d.current := by
        intro i hi
        simp only [ackFrame, hli]
        rw [if_neg (by omega)]
      have hAFw : ackFrame rs d.current rs1.length = Cm := by
        simp only [ackFrame, hli]
        rw [if_pos (by omega), hgetDj, hCm]
        rfl
      have hAF2 : ∀ i, rs1.length < i → ackFrame rs d.current i = Cm := by
        intro i hi
        simp only [ackFrame, hli]
        rw [if_pos (by omega), hgetDj, hCm]
        rfl
      have henum : rs.enum = List.enumFrom 0 (rs1 ++ w :: rs2) := by
        rw [hsplit]
        rfl
      refine ⟨trFold rs2 (trackUpdate (trFold rs1 tr) w.addr w.seq),
        { d with current := Cm }, [Cm], ?_, by simp⟩
      rw [processRequests_with_update d tr pending rs rs1 rs2 w Cm hlen hparse hinv hsplit hw
        hrs2 hCm hdm hokCm hseqs]
      rw [henum, acks_enum rs1 w rs2 d.current Cm (ackFrame rs d.current) hAF1 hAFw hAF2]

set_option maxRecDepth 1000000 in
/-- C8 witness: the concrete four-datagram batch — two frame updates, a
query, and a final frame update — yields exactly four acknowledgments,
one per datagram, at the senders' addresses, echoing each datagram's
own sequence number around the evolving current frame. -/
theorem per_datagram_ack_witness :
    ∃ tr2 d2 slog,
      processRequests fakeOps ⟨(1, 1), [[(.finite 0, .finite 0, .finite 0)]]⟩ ⟨none, none⟩
        [((3, 1), packOk (some [[(.finite 0, .finite 0, .finite 0)]]) 11),
         ((3, 2), packOk none 50),
         ((3, 1), packOk (some [[(.finite 1, .finite 0, .finite 0)]]) 12)] =
        .ok (tr2, d2,
          ([⟨(3, 1), some [[(.finite 0, .finite 0, .finite 0)]], 11⟩,
            ⟨(3, 2), none, 50⟩,
            ⟨(3, 1), some [[(.finite 1, .finite 0, .finite 0)]], 12⟩] : List Request).enum.map
            (fun p => (p.2.addr, packOk (some (ackFrame
              [⟨(3, 1), some [[(.finite 0, .finite 0, .finite 0)]], 11⟩,
               ⟨(3, 2), none, 50⟩,
               ⟨(3, 1), some [[(.finite 1, .finite 0, .finite 0)]], 12⟩]
              [[(.finite 0, .finite 0, .finite 0)]] p.1)) p.2.seq)),
          slog) ∧ slog.length ≤ 1 :=
  per_datagram_ack ⟨(1, 1), [[(.finite 0, .finite 0, .finite 0)]]⟩ ⟨none, none⟩
    [((3, 1), packOk (some [[(.finite 0, .finite 0, .finite 0)]]) 11),
     ((3, 2), packOk none 50),
     ((3, 1), packOk (some [[(.finite 1, .finite 0, .finite 0)]]) 12)]
    [⟨(3, 1), some [[(.finite 0, .finite 0, .finite 0)]], 11⟩,
     ⟨(3, 2), none, 50⟩,
     ⟨(3, 1), some [[(.finite 1, .finite 0, .finite 0)]], 12⟩]
    (by decide)
    (by with_unfolding_all rfl)
    ⟨by rfl, by decide, by decide, by with_unfolding_all decide⟩
    (by with_unfolding_all decide)
    (by with_unfolding_all decide)

lemma parseBatch_middle {D : Type} (ops : DriverOps D) (d : D)
    (pre post : List (Addr × List Nat)) (a : Addr) (bad : List Nat)
    (hbad : parseRequestData ops d bad = .error .runtimeError) :
    parseBatch ops d (pre ++ (a, bad) :: post) = parseBatch ops d (pre ++ post) := by
  induction pre with
  | nil =>
      simp only [List.nil_append, parseBatch, hbad]
  | cons p rest ih =>
      obtain ⟨a2, bs⟩ := p
      simp only [List.cons_append, parseBatch, List.append_eq, ih]

/-- C9: malformed-packet isolation. A datagram whose parse fails with
the recoverable `RuntimeError` (bad size, bad declared dimensions,
out-of-range channels, or a frame not matching the driven display) is
simply dropped from the batch: parsing and the whole batch processing
behave exactly as if the datagram had never been received, so every
valid datagram around it is still acknowledged and the winning valid
update still applied. -/
theorem malformed_packet_isolation {D : Type} (ops : DriverOps D) (d : D) (tr : SrvTrack)
    (pre post : List (Addr × List Nat)) (a : Addr) (bad : List Nat)
    (hbad : parseRequestData ops d bad = .error .runtimeError)
    (hlen : (pre ++ (a, bad) :: post).length ≤ 10) :
    parseBatch ops d (pre ++ (a, bad) :: post) = parseBatch ops d (pre ++ post) ∧
    processRequests ops d tr (pre ++ (a, bad) :: post) = processRequests ops d tr (pre ++ post) := by
  have hp := parseBatch_middle ops d pre post a bad hbad
  refine ⟨hp, ?_⟩
  have hlen2 : (pre ++ post).length ≤ 10 := by
    simp only [List.length_append, List.length_cons] at hlen ⊢
    omega
  simp only [processRequests, List.take_of_length_le hlen, List.take_of_length_le hlen2, hp]

set_option maxRecDepth 1000000 in
/-- C9 witness: a concrete batch holding a valid update, a 5-byte
malformed datagram, and a valid query is parsed and processed exactly
like the batch without the malformed datagram. -/
theorem malformed_packet_isolation_witness :
    parseBatch fakeOps (⟨(1, 1), [[(.finite 0, .finite 0, .finite 0)]]⟩ : FakeDisplay)
        ([((4, 1), packOk (some [[(.finite 1, .finite 1, .finite 1)]]) 2)] ++
          ((9, 9), [0, 0, 0, 0, 0]) :: [((4, 2), packOk none 8)]) =
      parseBatch fakeOps ⟨(1, 1), [[(.finite 0, .finite 0, .finite 0)]]⟩
        ([((4, 1), packOk (some [[(.finite 1, .finite 1, .finite 1)]]) 2)] ++
          [((4, 2), packOk none 8)]) ∧
    processRequests fakeOps (⟨(1, 1), [[(.finite 0, .finite 0, .finite 0)]]⟩ : FakeDisplay)
        ⟨none, none⟩
        ([((4, 1), packOk (some [[(.finite 1, .finite 1, .finite 1)]]) 2)] ++
          ((9, 9), [0, 0, 0, 0, 0]) :: [((4, 2), packOk none 8)]) =
      processRequests fakeOps ⟨(1, 1), [[(.finite 0, .finite 0, .finite 0)]]⟩ ⟨none, none⟩
        ([((4, 1), packOk (some [[(.finite 1, .finite 1, .finite 1)]]) 2)] ++
          [((4, 2), packOk none 8)]) :=
  malformed_packet_isolation fakeOps ⟨(1, 1), [[(.finite 0, .finite 0, .finite 0)]]⟩ ⟨none, none⟩
    [((4, 1), packOk (some [[(.finite 1, .finite 1, .finite 1)]]) 2)]
    [((4, 2), packOk none 8)] (9, 9) [0, 0, 0, 0, 0]
    (by with_unfolding_all rfl)
    (by with_unfolding_all decide)

end Walle
